import Mathlib

/-!
Verification of the wish-draw assignment engine: the deterministic seeded
pseudo-random generator (`SeededRandom` in the source) and the constrained
matching engine (`matchWishes`), shallowly embedded from
`src/WishGameWithRooms.tsx`.

JavaScript numbers are modelled exactly where they are exact: the 32-bit
signed truncations of the seed hash are `Int` arithmetic mod 2^32 and the
linear congruential step is `Nat` arithmetic (all intermediate values fit
well below 2^53).  `Math.floor(next() * (i + 1))` is idealized as the exact
rational floor (see `shuffleGo` for the double-rounding caveat).  JavaScript
`Map`s are association lists with insertion-order semantics (`set` updates in
place, appends fresh keys), `Set`s are membership-only lists, and the JS
truthiness test `!cur` in `tryMatch` covers both `undefined` and the empty
string (see `tryMatchGo`).  The engine's `throw`s become `Except`.
-/

namespace WishDraw

/-- UTF-16 code units of a character, as produced by JavaScript `charCodeAt`. -/
def utf16Units (c : Char) : List Nat :=
  let n := c.toNat
  if n < 65536 then [n]
  else [55296 + (n - 65536) / 1024, 56320 + (n - 65536) % 1024]

/-- The sequence of UTF-16 code units of a string (JavaScript string model). -/
def strCodes (s : String) : List Nat :=
  (s.data.map utf16Units).flatten

/-- Truncation of an integer to a 32-bit signed integer, as performed by
JavaScript bitwise operations (`<<`, `&`). -/
def toInt32 (x : Int) : Int :=
  (x + 2147483648) % 4294967296 - 2147483648

/-- One step of the seed-hash loop in the `SeededRandom` constructor:
`hash = ((hash << 5) - hash) + char; hash = hash & hash`.
`hash << 5` is `ToInt32(hash * 32)`; the subtraction and addition are exact
(float) arithmetic; `hash & hash` truncates back to a signed 32-bit value. -/
def jsHashStep (h : Int) (c : Nat) : Int :=
  toInt32 (toInt32 (h * 32) - h + c)

/-- The signed 32-bit hash accumulated over a list of character codes. -/
def jsHash (codes : List Nat) : Int :=
  codes.foldl jsHashStep 0

/-- `SeededRandom` constructor: hash the seed string, then `Math.abs`. -/
def hashSeed (seed : String) : Nat :=
  (jsHash (strCodes seed)).natAbs

/-- Modelled from the spec: the recurrence `h = (h*31 + charCode) mod 2^32`
over every character (the spec's description of the seed hash). -/
def specHashStep (h : Nat) (c : Nat) : Nat :=
  (h * 31 + c) % 4294967296

/-- Modelled from the spec: the accumulator of `specHashStep` over a string. -/
def specHash (codes : List Nat) : Nat :=
  codes.foldl specHashStep 0

/-- Modelled from the spec: interpret a mod-2^32 accumulator as a 32-bit
signed integer. -/
def specAsSigned (n : Nat) : Int :=
  if n < 2147483648 then (n : Int) else (n : Int) - 4294967296

/-- Modelled from the spec: the generator's initial internal state, the
absolute value of the signed 32-bit accumulator. -/
def specSeedInit (seed : String) : Nat :=
  (specAsSigned (specHash (strCodes seed))).natAbs

/-- `SeededRandom.next` state update: `state = (state * 9301 + 49297) % 233280`. -/
def nextState (s : Nat) : Nat :=
  (s * 9301 + 49297) % 233280

/-- The value returned by `SeededRandom.next`: the updated state divided by
233280 (exact, as a rational). -/
def nextValue (s : Nat) : ℚ :=
  ((nextState s : ℚ)) / 233280

/-- The first `n` outputs of a generator whose current state is `st`. -/
def outputsFrom : Nat → Nat → List ℚ
  | 0, _ => []
  | n + 1, st => nextValue st :: outputsFrom n (nextState st)

/-- The first `n` outputs of `new SeededRandom(seed)`. -/
def srOutputs (seed : String) (n : Nat) : List ℚ :=
  outputsFrom n (hashSeed seed)

/-- Swap the elements at positions `i` and `j` of a list
(`[result[i], result[j]] = [result[j], result[i]]`). -/
def listSwap (l : List α) (i j : Nat) : List α :=
  match l.get? i, l.get? j with
  | some a, some b => (l.set i b).set j a
  | _, _ => l

/-- The Fisher–Yates loop of `SeededRandom.shuffle`: iterate `i` from the
argument down to `1`; at each step draw `j = floor(next() * (i + 1))` and swap
positions `i` and `j`.  The state is threaded through `nextState`.  The drawn
index is modelled as the exact rational floor `state * (i + 1) / 233280`; the
source computes it in double precision, whose rounding can shift the floor by
one at some states once `i + 1 ≥ 45`, so for longer arrays the model may pick
a neighbouring (still in-range) index.  No theorem below depends on the value
of `j`, only on `j ≤ i`, which holds for both. -/
def shuffleGo : Nat → Nat → List α → List α
  | 0, _, l => l
  | i + 1, st, l =>
    let st' := nextState st
    let j := st' * (i + 2) / 233280
    shuffleGo i st' (listSwap l (i + 1) j)

/-- `shuffle` on a generator whose current state is `st`. -/
def shuffleFrom (st : Nat) (l : List α) : List α :=
  shuffleGo (l.length - 1) st l

/-- `new SeededRandom(seed).shuffle(l)`. -/
def srShuffle (seed : String) (l : List α) : List α :=
  shuffleFrom (hashSeed seed) l

/-- `Player` (the fields the engine reads: `id`, `name`, `group`; the other
fields are carried opaquely). -/
structure Player where
  id : String
  name : String
  wishes : List String
  isOwner : Option Bool
  locked : Option Bool
  group : Option String
deriving DecidableEq, Repr

/-- `Wish`. -/
structure Wish where
  id : String
  ownerId : String
  text : String
deriving DecidableEq, Repr

/-- `MatchPair`. -/
structure MatchPair where
  pickerId : String
  wishId : String
deriving DecidableEq, Repr

/-- The two failure modes of `matchWishes`: the structural throw naming a
player (`玩家「p.name」在当前分组下没有可选愿望`) and the final exhaustion
throw after all attempts. -/
inductive MatchError where
  | structural (p : Player)
  | exhausted
deriving DecidableEq, Repr

/-- JavaScript `Map.get` on an association list whose keys are unique
(first match). -/
def aget : List (String × β) → String → Option β
  | [], _ => none
  | (k, v) :: t, x => if k = x then some v else aget t x

/-- JavaScript `Map.set`: update an existing key in place, append a fresh
key at the end (preserving iteration order). -/
def aset : List (String × β) → String → β → List (String × β)
  | [], k, v => [(k, v)]
  | (a, b) :: t, k, v => if a = k then (k, v) :: t else (a, b) :: aset t k v

/-- JavaScript truthiness default `g || 'A'` for the optional group label. -/
def orA : Option String → String
  | none => "A"
  | some s => if s = "" then "A" else s

/-- `new Map(players.map(p => [p.id, p.group || 'A']))`. -/
def groupOfMap (players : List Player) : List (String × String) :=
  players.foldl (fun m p => aset m p.id (orA p.group)) []

/-- `groupOf.get(pid) || 'A'` — the group label used for pickers and owners,
defaulting to `"A"` for ids that are not players. -/
def groupLabel (players : List Player) (pid : String) : String :=
  match aget (groupOfMap players) pid with
  | some g => if g = "" then "A" else g
  | none => "A"

/-- `new Map(wishes.map(w => [w.id, w]))`. -/
def wishById (wishes : List Wish) : List (String × Wish) :=
  wishes.foldl (fun m w => aset m w.id w) []

/-- The eligibility candidate list of a player: all wish ids whose owner is
neither the player itself nor in the player's group
(`w.ownerId !== p.id && ownerGroup !== myGroup`). -/
def eligibleList (players : List Player) (wishes : List Wish) (p : Player) :
    List String :=
  (wishes.map (·.id)).filter fun id =>
    match aget (wishById wishes) id with
    | some w =>
        w.ownerId != p.id &&
          groupLabel players w.ownerId != groupLabel players p.id
    | none => false

/-- The candidate-map construction loop: for each player in order, compute
the eligibility list, fail on the first player whose list is empty, otherwise
store the list shuffled by `new SeededRandom(attemptSeed + '#cand#' + p.id)`. -/
def buildCandGo (players : List Player) (wishes : List Wish)
    (attemptSeed : String) :
    List Player → List (String × List String) →
      Except Player (List (String × List String))
  | [], acc => .ok acc
  | p :: rest, acc =>
    let list := eligibleList players wishes p
    if list.isEmpty then .error p
    else
      buildCandGo players wishes attemptSeed rest
        (aset acc p.id (srShuffle (attemptSeed ++ "#cand#" ++ p.id) list))

/-- The full candidate map of one attempt. -/
def buildCandidates (players : List Player) (wishes : List Wish)
    (attemptSeed : String) : Except Player (List (String × List String)) :=
  buildCandGo players wishes attemptSeed players []

/-- The two mutable maps of the augmenting-path search. -/
structure MatchState where
  wishAssignedTo : List (String × String)
  pickerAssignedWish : List (String × String)
deriving DecidableEq, Repr

/-- `wishAssignedTo.set(wid, pickerId); pickerAssignedWish.set(pickerId, wid)`. -/
def assign (st : MatchState) (pid wid : String) : MatchState :=
  { wishAssignedTo := aset st.wishAssignedTo wid pid
    pickerAssignedWish := aset st.pickerAssignedWish pid wid }

/-- The loop of `tryMatch` over the candidate list `opts` of `pid`: skip seen
wishes, add each considered wish to `seen`, test the current holder with
JavaScript truthiness — `!cur` is true when `wishAssignedTo.get(wid)` is
`undefined` *or* the empty string, so a wish recorded as held by the
empty-string participant id is taken as if free (without reassigning that
holder) — otherwise recursively reassign the holder (through `recurse`) and
on success take the wish; the `seen` set and the maps persist across loop
iterations. -/
def tryMatchGo (recurse : String → List String → MatchState →
      Bool × List String × MatchState) (pid : String) :
    List String → List String → MatchState → Bool × List String × MatchState
  | [], seen, st => (false, seen, st)
  | wid :: rest, seen, st =>
    if wid ∈ seen then tryMatchGo recurse pid rest seen st
    else
      match aget st.wishAssignedTo wid with
      | none => (true, wid :: seen, assign st pid wid)
      | some cur =>
        if cur = "" then (true, wid :: seen, assign st pid wid)
        else
          match recurse cur (wid :: seen) st with
          | (true, seen2, st2) => (true, seen2, assign st2 pid wid)
          | (false, seen2, st2) => tryMatchGo recurse pid rest seen2 st2

/-- `tryMatch(pickerId, seen)`, with a fuel bound on the recursion depth.
The recursion in the source terminates because every recursive call is made
after adding a fresh wish id to `seen`; the fuel is an artifact of the
embedding (`matchWishes` supplies more fuel than there are wish ids, which
is proved sufficient below). -/
def tryMatch (cand : String → List String) :
    Nat → String → List String → MatchState → Bool × List String × MatchState
  | 0, _, seen, st => (false, seen, st)
  | fuel + 1, pid, seen, st => tryMatchGo (tryMatch cand fuel) pid (cand pid) seen st

/-- The loop over the shuffled player order: each player starts a top-level
`tryMatch` with a fresh empty `seen` set; the attempt fails on the first
player that cannot be matched. -/
def runOrder (cand : String → List String) (fuel : Nat) :
    List String → MatchState → Option MatchState
  | [], st => some st
  | pid :: rest, st =>
    match tryMatch cand fuel pid [] st with
    | (true, _, st') => runOrder cand fuel rest st'
    | (false, _, _) => none

/-- One attempt of `matchWishes`: build the candidate map (failing
structurally on an empty list), shuffle the player order with
`new SeededRandom(attemptSeed + '#order')`, run the augmenting-path loop, and
on success return the pairs in `pickerAssignedWish` insertion order. -/
def runAttempt (players : List Player) (wishes : List Wish)
    (attemptSeed : String) (fuel : Nat) :
    Except Player (Option (List MatchPair)) :=
  match buildCandidates players wishes attemptSeed with
  | .error p => .error p
  | .ok candMap =>
    let cand := fun pid => (aget candMap pid).getD []
    let order := srShuffle (attemptSeed ++ "#order") (players.map (·.id))
    match runOrder cand fuel order ⟨[], []⟩ with
    | some st => .ok (some (st.pickerAssignedWish.map fun e => ⟨e.1, e.2⟩))
    | none => .ok none

/-- The attempt loop of `matchWishes`: `remaining` attempts left, the current
attempt index appended to the seed (`seed + '|' + attempt`); a structural
failure aborts the whole run, a successful attempt returns immediately, and
exhaustion of all attempts raises the final error. -/
def matchLoop (players : List Player) (wishes : List Wish) (seed : String)
    (fuel : Nat) : Nat → Nat → Except MatchError (List MatchPair)
  | 0, _ => .error .exhausted
  | r + 1, attempt =>
    match runAttempt players wishes (seed ++ "|" ++ toString attempt) fuel with
    | .error p => .error (.structural p)
    | .ok (some pairs) => .ok pairs
    | .ok none => matchLoop players wishes seed fuel r (attempt + 1)

/-- `matchWishes` with an explicit fuel for the augmenting-path recursion. -/
def matchWishesF (players : List Player) (wishes : List Wish) (seed : String)
    (fuel : Nat) : Except MatchError (List MatchPair) :=
  matchLoop players wishes seed fuel 7 0

/-- `matchWishes(players, wishes, seed)`: up to 7 attempts indexed 0..6.
The fuel `wishes.length + 1` strictly exceeds the number of wish ids, which
is proved sufficient below (the result is the same for any larger fuel). -/
def matchWishes (players : List Player) (wishes : List Wish) (seed : String) :
    Except MatchError (List MatchPair) :=
  matchWishesF players wishes seed (wishes.length + 1)

/-! ### Association-list lemmas -/

theorem aget_aset {β : Type} (m : List (String × β)) (k : String) (v : β)
    (x : String) :
    aget (aset m k v) x = if k = x then some v else aget m x := by
  induction m with
  | nil => simp [aset, aget]
  | cons e t ih =>
    obtain ⟨a, b⟩ := e
    by_cases hak : a = k
    · subst hak
      by_cases hx : a = x <;> simp [aset, aget, hx]
    · by_cases hx : a = x
      · subst hx
        simp [aset, aget, hak, Ne.symm hak]
      · simp [aset, aget, hak, hx, ih]

theorem aget_mem {β : Type} {m : List (String × β)} {k : String} {v : β}
    (h : aget m k = some v) : (k, v) ∈ m := by
  induction m with
  | nil => simp [aget] at h
  | cons e t ih =>
    obtain ⟨a, b⟩ := e
    by_cases hak : a = k
    · subst hak
      simp [aget] at h
      simp [h]
    · simp [aget, hak] at h
      exact List.mem_cons_of_mem _ (ih h)

theorem mem_keys_of_aget {β : Type} {m : List (String × β)} {k : String}
    {v : β} (h : aget m k = some v) : k ∈ m.map Prod.fst := by
  have := aget_mem h
  exact List.mem_map.mpr ⟨(k, v), this, rfl⟩

theorem aget_eq_some_of_mem {β : Type} {m : List (String × β)} {k : String}
    {v : β} (h : (k, v) ∈ m) (nd : (m.map Prod.fst).Nodup) :
    aget m k = some v := by
  induction m with
  | nil => simp at h
  | cons e t ih =>
    obtain ⟨a, b⟩ := e
    simp only [List.map_cons, List.nodup_cons] at nd
    rcases List.mem_cons.mp h with h1 | h1
    · rw [Prod.mk.injEq] at h1
      obtain ⟨rfl, rfl⟩ := h1
      simp [aget]
    · have hak : a ≠ k := by
        rintro rfl
        exact nd.1 (List.mem_map.mpr ⟨(a, v), h1, rfl⟩)
      simp [aget, hak, ih h1 nd.2]

theorem keys_aset {β : Type} (m : List (String × β)) (k : String) (v : β) :
    (aset m k v).map Prod.fst =
      if k ∈ m.map Prod.fst then m.map Prod.fst else m.map Prod.fst ++ [k] := by
  induction m with
  | nil => simp [aset]
  | cons e t ih =>
    obtain ⟨a, b⟩ := e
    by_cases hak : a = k
    · subst hak
      simp [aset]
    · simp only [aset, if_neg hak, List.map_cons, ih]
      by_cases hk : k ∈ t.map Prod.fst <;>
        simp [hk, Ne.symm hak]

theorem nodupKeys_aset {β : Type} {m : List (String × β)} (k : String) (v : β)
    (nd : (m.map Prod.fst).Nodup) : ((aset m k v).map Prod.fst).Nodup := by
  rw [keys_aset]
  by_cases hk : k ∈ m.map Prod.fst
  · simpa [hk]
  · simp only [hk, if_false]
    refine List.Nodup.append nd (List.nodup_singleton k) ?_
    intro a ha hb
    rw [List.mem_singleton] at hb
    subst hb
    exact hk ha

/-! ### Swap and shuffle permutation lemmas -/

theorem get_cons_set_perm {α : Type u} :
    ∀ (l : List α) (j : Nat) (hj : j < l.length) (x : α),
      (l.get ⟨j, hj⟩ :: l.set j x).Perm (x :: l)
  | h :: t, 0, _, x => List.Perm.swap x h t
  | h :: t, j + 1, hj, x => by
    have ih := get_cons_set_perm t j (Nat.lt_of_succ_lt_succ hj) x
    simp only [List.get_cons_succ, List.set_cons_succ]
    exact (List.Perm.swap h (t.get ⟨j, Nat.lt_of_succ_lt_succ hj⟩)
      (t.set j x)).trans ((List.Perm.cons h ih).trans (List.Perm.swap x h t))

theorem set_set_perm_get {α : Type u} :
    ∀ (l : List α) (i j : Nat) (hi : i < l.length) (hj : j < l.length),
      ((l.set i (l.get ⟨j, hj⟩)).set j (l.get ⟨i, hi⟩)).Perm l
  | h :: t, 0, 0, hi, hj => by
    simp only [List.get_cons_zero, List.set_cons_zero]
    exact List.Perm.refl _
  | h :: t, 0, j + 1, hi, hj => by
    simp only [List.get_cons_zero, List.get_cons_succ, List.set_cons_zero,
      List.set_cons_succ]
    exact get_cons_set_perm t j (Nat.lt_of_succ_lt_succ hj) h
  | h :: t, i + 1, 0, hi, hj => by
    simp only [List.get_cons_zero, List.get_cons_succ, List.set_cons_zero,
      List.set_cons_succ]
    exact get_cons_set_perm t i (Nat.lt_of_succ_lt_succ hi) h
  | h :: t, i + 1, j + 1, hi, hj => by
    simp only [List.get_cons_succ, List.set_cons_succ]
    exact List.Perm.cons h
      (set_set_perm_get t i j (Nat.lt_of_succ_lt_succ hi) (Nat.lt_of_succ_lt_succ hj))

theorem listSwap_perm {α : Type u} (l : List α) (i j : Nat) :
    (listSwap l i j).Perm l := by
  unfold listSwap
  rcases h1 : l.get? i with _ | a
  · simp
  · rcases h2 : l.get? j with _ | b
    · simp
    · simp only []
      obtain ⟨hi, ha⟩ := List.get?_eq_some.mp h1
      obtain ⟨hj, hb⟩ := List.get?_eq_some.mp h2
      subst ha
      subst hb
      exact set_set_perm_get l i j hi hj

theorem shuffleGo_perm {α : Type u} :
    ∀ (i st : Nat) (l : List α), (shuffleGo i st l).Perm l := by
  intro i
  induction i with
  | zero =>
    intro st l
    exact List.Perm.refl _
  | succ i ih =>
    intro st l
    simp only [shuffleGo]
    exact (ih _ _).trans (listSwap_perm _ _ _)

theorem shuffleFrom_perm {α : Type u} (st : Nat) (l : List α) :
    (shuffleFrom st l).Perm l :=
  shuffleGo_perm _ _ _

/-- Claim C7 helper: `shuffle` returns a permutation of its input. -/
theorem srShuffle_perm_general {α : Type u} (seed : String) (l : List α) :
    (srShuffle seed l).Perm l :=
  shuffleFrom_perm _ _

/-! ### Seed-hash equivalence lemmas -/

theorem toInt32_mod (x : Int) : toInt32 x % 4294967296 = x % 4294967296 := by
  unfold toInt32
  omega

theorem toInt32_congr {x y : Int} (h : x % 4294967296 = y % 4294967296) :
    toInt32 x = toInt32 y := by
  unfold toInt32
  omega

theorem jsHashStep_eq_spec (h : Int) (c : Nat) :
    jsHashStep h c = toInt32 (h * 31 + c) := by
  unfold jsHashStep
  apply toInt32_congr
  have h1 := toInt32_mod (h * 32)
  omega

theorem step_correspond (n c : Nat) :
    jsHashStep (specAsSigned n) c = specAsSigned (specHashStep n c) := by
  rw [jsHashStep_eq_spec]
  unfold toInt32 specAsSigned specHashStep
  split <;> split <;> omega

theorem fold_correspond (codes : List Nat) :
    ∀ n : Nat, codes.foldl jsHashStep (specAsSigned n) =
      specAsSigned (codes.foldl specHashStep n) := by
  induction codes with
  | nil => intro n; rfl
  | cons c t ih =>
    intro n
    simp only [List.foldl_cons, step_correspond, ih]

theorem jsHash_eq_spec (codes : List Nat) :
    jsHash codes = specAsSigned (specHash codes) := by
  have h0 : specAsSigned 0 = 0 := by
    unfold specAsSigned
    norm_num
  unfold jsHash specHash
  rw [← h0, fold_correspond]

/-! ### Claim theorems for the sequence generator -/

/-- C5: the `SeededRandom` constructor's seed hash — `((hash << 5) - hash) +
char` followed by 32-bit signed truncation — equals the spec's recurrence
`h = (h*31 + charCode) mod 2^32` interpreted as a 32-bit signed integer, for
every step and for every input string; taking absolute values, the initial
internal state computed by the code equals the spec's initial state. -/
theorem hashSeed_eq_specSeedInit :
    (∀ (h : Int) (c : Nat), jsHashStep h c = toInt32 (h * 31 + c)) ∧
      ∀ seed : String, hashSeed seed = specSeedInit seed := by
  refine ⟨jsHashStep_eq_spec, fun seed => ?_⟩
  unfold hashSeed specSeedInit
  rw [jsHash_eq_spec]

/-- C6: `next()` updates the state to `(state*9301 + 49297) mod 233280` and
returns `state / 233280`; for every seed string and every number of prior
calls the returned value lies in `[0, 1)`. -/
theorem nextState_nextValue_spec :
    (∀ s : Nat, nextState s = (s * 9301 + 49297) % 233280 ∧
        nextValue s = ((nextState s : ℚ)) / 233280) ∧
      ∀ (seed : String) (k : Nat),
        0 ≤ nextValue (nextState^[k] (hashSeed seed)) ∧
          nextValue (nextState^[k] (hashSeed seed)) < 1 := by
  refine ⟨fun s => ⟨rfl, rfl⟩, fun seed k => ?_⟩
  have hlt : nextState (nextState^[k] (hashSeed seed)) < 233280 :=
    Nat.mod_lt _ (by norm_num)
  constructor
  · unfold nextValue
    exact div_nonneg (Nat.cast_nonneg _) (by norm_num)
  · unfold nextValue
    rw [div_lt_one (by norm_num)]
    exact_mod_cast hlt

/-- C7: the shuffle operation (Fisher–Yates from index `n-1` down to `1`,
drawing `j = floor(next() * (i+1))` and swapping positions `i` and `j`)
returns a permutation of its input: same length and same multiset. -/
theorem srShuffle_fisher_yates_perm :
    ∀ (α : Type) (seed : String) (l : List α),
      (srShuffle seed l).Perm l ∧ (srShuffle seed l).length = l.length ∧
        ((srShuffle seed l : Multiset α)) = (l : Multiset α) := by
  intro α seed l
  have h := shuffleFrom_perm (hashSeed seed) l
  exact ⟨h, h.length_eq, Multiset.coe_eq_coe.mpr h⟩

/-- C8: two-run determinism — generators built from equal seed strings give
identical output sequences and identical shuffles, and two calls of
`matchWishes` on the same participants, wishes and seed give the same
result. -/
theorem generator_match_deterministic :
    (∀ s₁ s₂ : String, s₁ = s₂ →
      (∀ n, srOutputs s₁ n = srOutputs s₂ n) ∧
        ∀ (α : Type) (l : List α), srShuffle s₁ l = srShuffle s₂ l) ∧
      ∀ (players : List Player) (wishes : List Wish) (seed : String)
        (r₁ r₂ : Except MatchError (List MatchPair)),
        r₁ = matchWishes players wishes seed →
        r₂ = matchWishes players wishes seed → r₁ = r₂ := by
  constructor
  · intro s₁ s₂ h
    subst h
    exact ⟨fun _ => rfl, fun _ _ => rfl⟩
  · intro _ _ _ _ _ h₁ h₂
    rw [h₁, h₂]

/-- Witness for C8 at concrete inputs. -/
theorem generator_match_deterministic_witness :
    srOutputs "x" 3 = srOutputs "x" 3 ∧
      matchWishes [] [] "s" = matchWishes [] [] "s" :=
  ⟨(generator_match_deterministic.1 "x" "x" rfl).1 3,
    generator_match_deterministic.2 [] [] "s"
      (matchWishes [] [] "s") (matchWishes [] [] "s") rfl rfl⟩

/-- C10: for an empty participant list, `matchWishes` succeeds with the empty
pair list, on the first attempt, for every wish list and seed. -/
theorem matchWishes_nil_players (wishes : List Wish) (seed : String) :
    matchWishes [] wishes seed = .ok [] ∧
      runAttempt [] wishes (seed ++ "|" ++ toString 0) (wishes.length + 1) =
        .ok (some []) :=
  ⟨rfl, rfl⟩

/-! ### Counting never-seen wish ids (termination measure of `tryMatch`) -/

/-- The number of distinct wish ids of `U` not yet in `seen`. -/
def unseenCount (U : List String) (seen : List String) : Nat :=
  (U.toFinset.filter (fun w => w ∉ seen)).card

theorem unseenCount_mono {U seen seen' : List String} (h : seen ⊆ seen') :
    unseenCount U seen' ≤ unseenCount U seen := by
  apply Finset.card_le_card
  intro w hw
  simp only [Finset.mem_filter] at hw ⊢
  exact ⟨hw.1, fun hmem => hw.2 (h hmem)⟩

theorem unseenCount_cons_lt {U seen : List String} {wid : String}
    (hU : wid ∈ U) (hs : wid ∉ seen) :
    unseenCount U (wid :: seen) < unseenCount U seen := by
  apply Finset.card_lt_card
  rw [Finset.ssubset_iff_of_subset]
  · exact ⟨wid, by simp [hU, hs], by simp⟩
  · intro w hw
    simp only [Finset.mem_filter, List.mem_cons] at hw ⊢
    exact ⟨hw.1, fun hmem => hw.2 (Or.inr hmem)⟩

theorem unseenCount_nil_le_length (U : List String) :
    unseenCount U [] ≤ U.length :=
  le_trans (Finset.card_le_card (Finset.filter_subset _ _))
    (List.toFinset_card_le U)

/-! ### Failed searches leave the maps unchanged and only grow `seen` -/

theorem tryMatchGo_false_frame
    (recurse : String → List String → MatchState →
      Bool × List String × MatchState)
    (hrec : ∀ cur seen st seen2 st2,
      recurse cur seen st = (false, seen2, st2) → st2 = st ∧ seen ⊆ seen2) :
    ∀ (opts : List String) (pid : String) (seen : List String)
      (st : MatchState) (seen' : List String) (st' : MatchState),
      tryMatchGo recurse pid opts seen st = (false, seen', st') →
      st' = st ∧ seen ⊆ seen' := by
  intro opts
  induction opts with
  | nil =>
    intro pid seen st seen' st' h
    simp only [tryMatchGo, Prod.mk.injEq] at h
    obtain ⟨-, h2, h3⟩ := h
    subst h2
    subst h3
    exact ⟨rfl, List.Subset.refl _⟩
  | cons wid rest ih =>
    intro pid seen st seen' st' h
    simp only [tryMatchGo] at h
    split at h
    · exact ih pid seen st seen' st' h
    · rename_i hmem
      split at h
      · simp at h
      · rename_i cur hw
        split at h
        · simp at h
        · rename_i hcur
          split at h
          · simp at h
          · rename_i seen2 st2 hr
            obtain ⟨hst2, hsub2⟩ := hrec cur (wid :: seen) st seen2 st2 hr
            subst hst2
            obtain ⟨h1, h2⟩ := ih pid seen2 st2 seen' st' h
            exact ⟨h1, fun x hx => h2 (hsub2 (List.mem_cons_of_mem _ hx))⟩

theorem tryMatch_false_frame (cand : String → List String) :
    ∀ (fuel : Nat) (pid : String) (seen : List String) (st : MatchState)
      (seen' : List String) (st' : MatchState),
      tryMatch cand fuel pid seen st = (false, seen', st') →
      st' = st ∧ seen ⊆ seen' := by
  intro fuel
  induction fuel with
  | zero =>
    intro pid seen st seen' st' h
    simp only [tryMatch, Prod.mk.injEq] at h
    obtain ⟨-, h2, h3⟩ := h
    subst h2
    subst h3
    exact ⟨rfl, List.Subset.refl _⟩
  | succ fuel ih =>
    intro pid seen st seen' st' h
    exact tryMatchGo_false_frame _ (fun c s m s2 m2 hr => ih c s m s2 m2 hr)
      (cand pid) pid seen st seen' st' h

/-! ### Failed searches explore the whole reachable candidate set -/

theorem tryMatchGo_false_explore
    (U : List String) (cand : String → List String) (fuelVar : Nat)
    (recurse : String → List String → MatchState →
      Bool × List String × MatchState)
    (hrec_frame : ∀ cur seen st seen2 st2,
      recurse cur seen st = (false, seen2, st2) → st2 = st ∧ seen ⊆ seen2)
    (hrec_explore : ∀ cur seen st seen2 st2, unseenCount U seen < fuelVar →
      recurse cur seen st = (false, seen2, st2) →
      cand cur ⊆ seen2 ∧
        ∀ w ∈ seen2, w ∈ seen ∨
          ∃ h, aget st.wishAssignedTo w = some h ∧ cand h ⊆ seen2) :
    ∀ (opts : List String) (pid : String) (seen : List String)
      (st : MatchState) (seen' : List String) (st' : MatchState),
      opts ⊆ U → unseenCount U seen ≤ fuelVar →
      tryMatchGo recurse pid opts seen st = (false, seen', st') →
      opts ⊆ seen' ∧
        ∀ w ∈ seen', w ∈ seen ∨
          ∃ h, aget st.wishAssignedTo w = some h ∧ cand h ⊆ seen' := by
  intro opts
  induction opts with
  | nil =>
    intro pid seen st seen' st' _ _ h
    simp only [tryMatchGo, Prod.mk.injEq] at h
    obtain ⟨-, h2, h3⟩ := h
    subst h2
    subst h3
    exact ⟨List.nil_subset _, fun w hw => Or.inl hw⟩
  | cons wid rest ih =>
    intro pid seen st seen' st' hopts hfuel h
    have hframe := tryMatchGo_false_frame recurse hrec_frame (wid :: rest)
      pid seen st seen' st' (by simpa only [tryMatchGo] using h)
    simp only [tryMatchGo] at h
    split at h
    · rename_i hmem
      obtain ⟨hrs, hcl⟩ := ih pid seen st seen' st'
        (fun x hx => hopts (List.mem_cons_of_mem _ hx)) hfuel h
      refine ⟨?_, hcl⟩
      intro x hx
      rcases List.mem_cons.mp hx with rfl | hx
      · exact hframe.2 hmem
      · exact hrs hx
    · rename_i hmem
      split at h
      · simp at h
      · rename_i cur hw
        split at h
        · simp at h
        · rename_i hcur
          split at h
          · simp at h
          · rename_i seen2 st2 hr
            obtain ⟨hst2, hsub2⟩ := hrec_frame cur (wid :: seen) st seen2 st2
              hr
            rw [hst2] at h
            have hwidU : wid ∈ U := hopts (List.mem_cons_self _ _)
            have hlt : unseenCount U (wid :: seen) < fuelVar :=
              Nat.lt_of_lt_of_le (unseenCount_cons_lt hwidU hmem) hfuel
            obtain ⟨hcand2, hcl2⟩ := hrec_explore cur (wid :: seen) st seen2
              st2 hlt hr
            have hfuel2 : unseenCount U seen2 ≤ fuelVar :=
              le_trans (unseenCount_mono
                (fun x hx => hsub2 (List.mem_cons_of_mem _ hx))) hfuel
            obtain ⟨hframe3, hsub3⟩ := tryMatchGo_false_frame recurse
              hrec_frame rest pid seen2 st seen' st' h
            obtain ⟨hrs, hcl3⟩ := ih pid seen2 st seen' st'
              (fun x hx => hopts (List.mem_cons_of_mem _ hx)) hfuel2 h
            constructor
            · intro x hx
              rcases List.mem_cons.mp hx with rfl | hx
              · exact hsub3 (hsub2 (List.mem_cons_self _ _))
              · exact hrs hx
            · intro w hwmem
              rcases hcl3 w hwmem with h2 | ⟨hh, hgh, hch⟩
              · rcases hcl2 w h2 with h3 | ⟨hh, hgh, hch⟩
                · rcases List.mem_cons.mp h3 with rfl | h4
                  · exact Or.inr ⟨cur, hw, fun x hx => hsub3 (hcand2 hx)⟩
                  · exact Or.inl h4
                · exact Or.inr ⟨hh, hgh, fun x hx => hsub3 (hch hx)⟩
              · exact Or.inr ⟨hh, hgh, hch⟩

theorem tryMatch_false_explore
    (U : List String) (cand : String → List String) (hU : ∀ q, cand q ⊆ U) :
    ∀ (fuel : Nat) (pid : String) (seen : List String) (st : MatchState)
      (seen' : List String) (st' : MatchState),
      unseenCount U seen < fuel →
      tryMatch cand fuel pid seen st = (false, seen', st') →
      cand pid ⊆ seen' ∧
        ∀ w ∈ seen', w ∈ seen ∨
          ∃ h, aget st.wishAssignedTo w = some h ∧ cand h ⊆ seen' := by
  intro fuel
  induction fuel with
  | zero =>
    intro pid seen st seen' st' hf
    exact absurd hf (Nat.not_lt_zero _)
  | succ fuel ih =>
    intro pid seen st seen' st' hf h
    exact tryMatchGo_false_explore U cand fuel (tryMatch cand fuel)
      (fun c s m s2 m2 hr => tryMatch_false_frame cand fuel c s m s2 m2 hr)
      (fun c s m s2 m2 hlt hr => ih c s m s2 m2 hlt hr)
      (cand pid) pid seen st seen' st' (hU pid) (Nat.lt_succ_iff.mp hf) h

/-! ### Invariants of successful searches -/

/-- Invariants holding when `tryMatch` is entered: the two maps are mutually
inverse, every assignment respects the candidate lists, and the entered
picker's current wish (if any) is already in `seen`. -/
structure EntryInv (cand : String → List String) (pid : String)
    (seen : List String) (st : MatchState) : Prop where
  inv1 : ∀ p w, aget st.pickerAssignedWish p = some w →
    aget st.wishAssignedTo w = some p
  inv2 : ∀ w p, aget st.wishAssignedTo w = some p →
    aget st.pickerAssignedWish p = some w
  resp : ∀ p w, aget st.pickerAssignedWish p = some w → w ∈ cand p
  pending : ∀ w₀, aget st.pickerAssignedWish pid = some w₀ → w₀ ∈ seen
  empty_free : aget st.pickerAssignedWish "" = none

/-- What a successful `tryMatch` call guarantees about its output state. -/
structure TrueOut (cand : String → List String) (pid : String)
    (opts seen seen' : List String) (st st' : MatchState) : Prop where
  seen_mono : seen ⊆ seen'
  self_assigned : ∃ w, aget st'.pickerAssignedWish pid = some w ∧
    w ∈ opts ∧ w ∉ seen
  paw_frame : ∀ p, p ≠ pid →
    aget st'.pickerAssignedWish p ≠ aget st.pickerAssignedWish p →
    (∃ w₀, aget st.pickerAssignedWish p = some w₀ ∧ w₀ ∉ seen) ∧
      ∃ w', aget st'.pickerAssignedWish p = some w' ∧ w' ∈ cand p ∧ w' ∉ seen
  wat_frame : ∀ w, aget st'.wishAssignedTo w ≠ aget st.wishAssignedTo w →
    w ∉ seen
  inv1 : ∀ p w, aget st'.pickerAssignedWish p = some w →
    aget st'.wishAssignedTo w = some p
  inv2 : ∀ w p, aget st'.wishAssignedTo w = some p →
    aget st'.pickerAssignedWish p = some w ∨
      ∃ w₀, aget st.pickerAssignedWish pid = some w₀ ∧ w = w₀
  resp : ∀ p w, aget st'.pickerAssignedWish p = some w →
    w ∈ cand p ∨ (p = pid ∧ w ∈ opts)
  keys_mono : ∀ p w, aget st.pickerAssignedWish p = some w →
    ∃ w', aget st'.pickerAssignedWish p = some w'
  nodup : (st.pickerAssignedWish.map Prod.fst).Nodup →
    (st'.pickerAssignedWish.map Prod.fst).Nodup

theorem tryMatchGo_true
    (cand : String → List String)
    (recurse : String → List String → MatchState →
      Bool × List String × MatchState)
    (hrec_false : ∀ cur seen st seen2 st2,
      recurse cur seen st = (false, seen2, st2) → st2 = st ∧ seen ⊆ seen2)
    (hrec_true : ∀ cur seen st seen2 st2, EntryInv cand cur seen st →
      recurse cur seen st = (true, seen2, st2) →
      TrueOut cand cur (cand cur) seen seen2 st st2) :
    ∀ (opts : List String) (pid : String) (seen : List String)
      (st : MatchState) (seen' : List String) (st' : MatchState),
      EntryInv cand pid seen st →
      tryMatchGo recurse pid opts seen st = (true, seen', st') →
      TrueOut cand pid opts seen seen' st st' := by
  intro opts
  induction opts with
  | nil =>
    intro pid seen st seen' st' _ h
    simp [tryMatchGo] at h
  | cons wid rest ih =>
    intro pid seen st seen' st' entry h
    simp only [tryMatchGo] at h
    split at h
    · rename_i hmem
      have T := ih pid seen st seen' st' entry h
      exact { T with
        self_assigned := by
          obtain ⟨w, h1, h2, h3⟩ := T.self_assigned
          exact ⟨w, h1, List.mem_cons_of_mem _ h2, h3⟩
        resp := by
          intro p w hp
          rcases T.resp p w hp with h1 | ⟨h1, h2⟩
          · exact Or.inl h1
          · exact Or.inr ⟨h1, List.mem_cons_of_mem _ h2⟩ }
    · rename_i hmem
      split at h
      · rename_i hw
        simp only [Prod.mk.injEq] at h
        obtain ⟨-, h1, h2⟩ := h
        subst h1
        subst h2
        have hpaw : ∀ p, aget (assign st pid wid).pickerAssignedWish p =
            if pid = p then some wid else aget st.pickerAssignedWish p :=
          fun p => aget_aset _ _ _ _
        have hwat : ∀ w, aget (assign st pid wid).wishAssignedTo w =
            if wid = w then some pid else aget st.wishAssignedTo w :=
          fun w => aget_aset _ _ _ _
        refine ⟨?_, ?_, ?_, ?_, ?_, ?_, ?_, ?_, ?_⟩
        · exact fun x hx => List.mem_cons_of_mem _ hx
        · exact ⟨wid, by rw [hpaw]; simp, List.mem_cons_self _ _, hmem⟩
        · intro p hp hchanged
          rw [hpaw, if_neg (fun hh => hp hh.symm)] at hchanged
          exact absurd rfl hchanged
        · intro w hchanged
          rw [hwat] at hchanged
          by_cases hww : wid = w
          · subst hww
            exact hmem
          · rw [if_neg hww] at hchanged
            exact absurd rfl hchanged
        · intro p w hp
          rw [hpaw] at hp
          by_cases hpp : pid = p
          · subst hpp
            rw [if_pos rfl] at hp
            obtain rfl := Option.some_inj.mp hp
            rw [hwat, if_pos rfl]
          · rw [if_neg hpp] at hp
            have h2 := entry.inv1 p w hp
            rw [hwat]
            by_cases hww : wid = w
            · subst hww
              rw [h2] at hw
              exact absurd hw (by simp)
            · rw [if_neg hww]
              exact h2
        · intro w p hp
          rw [hwat] at hp
          by_cases hww : wid = w
          · subst hww
            rw [if_pos rfl] at hp
            obtain rfl := Option.some_inj.mp hp
            rw [hpaw, if_pos rfl]
            exact Or.inl rfl
          · rw [if_neg hww] at hp
            have h2 := entry.inv2 w p hp
            by_cases hpp : pid = p
            · subst hpp
              exact Or.inr ⟨w, h2, rfl⟩
            · rw [hpaw, if_neg hpp]
              exact Or.inl h2
        · intro p w hp
          rw [hpaw] at hp
          by_cases hpp : pid = p
          · subst hpp
            rw [if_pos rfl] at hp
            obtain rfl := Option.some_inj.mp hp
            exact Or.inr ⟨rfl, List.mem_cons_self _ _⟩
          · rw [if_neg hpp] at hp
            exact Or.inl (entry.resp p w hp)
        · intro p w hp
          rw [hpaw]
          by_cases hpp : pid = p
          · exact ⟨wid, by rw [if_pos hpp]⟩
          · exact ⟨w, by rw [if_neg hpp]; exact hp⟩
        · intro hnd
          exact nodupKeys_aset _ _ hnd
      · rename_i cur hw
        split at h
        · rename_i hcur
          exfalso
          have h2 := entry.inv2 wid cur hw
          rw [hcur, entry.empty_free] at h2
          exact Option.noConfusion h2
        · rename_i hcur
          have hcurpid : cur ≠ pid := by
            rintro rfl
            exact hmem (entry.pending wid (entry.inv2 wid cur hw))
          split at h
          · rename_i seen2 st2 hr
            simp only [Prod.mk.injEq] at h
            obtain ⟨-, h1, h2⟩ := h
            subst h1
            subst h2
            have entry2 : EntryInv cand cur (wid :: seen) st :=
              { inv1 := entry.inv1, inv2 := entry.inv2, resp := entry.resp
                empty_free := entry.empty_free
                pending := by
                  intro w₀ hp
                  have h2 := entry.inv2 wid cur hw
                  rw [hp] at h2
                  obtain rfl := Option.some_inj.mp h2
                  exact List.mem_cons_self _ _ }
            have T2 := hrec_true cur (wid :: seen) st seen2 st2 entry2 hr
            have hpaw : ∀ p, aget (assign st2 pid wid).pickerAssignedWish p =
                if pid = p then some wid else aget st2.pickerAssignedWish p :=
              fun p => aget_aset _ _ _ _
            have hwat : ∀ w, aget (assign st2 pid wid).wishAssignedTo w =
                if wid = w then some pid else aget st2.wishAssignedTo w :=
              fun w => aget_aset _ _ _ _
            have hpid_unchanged : aget st2.pickerAssignedWish pid =
                aget st.pickerAssignedWish pid := by
              by_contra hch
              obtain ⟨⟨w₀, hw₀, hw₀s⟩, -⟩ :=
                T2.paw_frame pid (fun hh => hcurpid hh.symm) hch
              exact hw₀s (List.mem_cons_of_mem _ (entry.pending w₀ hw₀))
            refine ⟨?_, ?_, ?_, ?_, ?_, ?_, ?_, ?_, ?_⟩
            · exact fun x hx =>
                T2.seen_mono (List.mem_cons_of_mem _ hx)
            · exact ⟨wid, by rw [hpaw]; simp, List.mem_cons_self _ _, hmem⟩
            · intro p hp hchanged
              rw [hpaw, if_neg (fun hh => hp hh.symm)] at hchanged
              rw [hpaw, if_neg (fun hh => hp hh.symm)]
              by_cases hpc : p = cur
              · subst hpc
                have hold : aget st.pickerAssignedWish p = some wid :=
                  entry.inv2 wid p hw
                obtain ⟨w', hw', hw'c, hw's⟩ := T2.self_assigned
                refine ⟨⟨wid, hold, hmem⟩, ⟨w', hw', hw'c, ?_⟩⟩
                exact fun hx => hw's (List.mem_cons_of_mem _ hx)
              · obtain ⟨⟨w₀, hw₀, hw₀s⟩, ⟨w', hw', hw'c, hw's⟩⟩ :=
                  T2.paw_frame p hpc hchanged
                exact ⟨⟨w₀, hw₀, fun hx => hw₀s (List.mem_cons_of_mem _ hx)⟩,
                  ⟨w', hw', hw'c, fun hx => hw's (List.mem_cons_of_mem _ hx)⟩⟩
            · intro w hchanged
              rw [hwat] at hchanged
              by_cases hww : wid = w
              · subst hww
                exact hmem
              · rw [if_neg hww] at hchanged
                exact fun hx =>
                  T2.wat_frame w hchanged (List.mem_cons_of_mem _ hx)
            · intro p w hp
              rw [hpaw] at hp
              by_cases hpp : pid = p
              · subst hpp
                rw [if_pos rfl] at hp
                obtain rfl := Option.some_inj.mp hp
                rw [hwat, if_pos rfl]
              · rw [if_neg hpp] at hp
                have h2 := T2.inv1 p w hp
                rw [hwat]
                by_cases hww : wid = w
                · subst hww
                  exfalso
                  by_cases hpc : p = cur
                  · subst hpc
                    obtain ⟨w', hw', hw'c, hw's⟩ := T2.self_assigned
                    rw [hp] at hw'
                    obtain rfl := Option.some_inj.mp hw'
                    exact hw's (List.mem_cons_self _ _)
                  · by_cases hch : aget st2.pickerAssignedWish p =
                        aget st.pickerAssignedWish p
                    · rw [hch] at hp
                      have h3 := entry.inv1 p wid hp
                      rw [h3] at hw
                      exact hpc (Option.some_inj.mp hw)
                    · obtain ⟨-, ⟨w', hw', hw'c, hw's⟩⟩ :=
                        T2.paw_frame p hpc hch
                      rw [hp] at hw'
                      obtain rfl := Option.some_inj.mp hw'
                      exact hw's (List.mem_cons_self _ _)
                · rw [if_neg hww]
                  exact h2
            · intro w p hp
              rw [hwat] at hp
              by_cases hww : wid = w
              · subst hww
                rw [if_pos rfl] at hp
                obtain rfl := Option.some_inj.mp hp
                rw [hpaw, if_pos rfl]
                exact Or.inl rfl
              · rw [if_neg hww] at hp
                rcases T2.inv2 w p hp with h2 | ⟨w₀, hw₀, rfl⟩
                · by_cases hpp : pid = p
                  · subst hpp
                    rw [hpid_unchanged] at h2
                    exact Or.inr ⟨w, h2, rfl⟩
                  · rw [hpaw, if_neg hpp]
                    exact Or.inl h2
                · exfalso
                  have h3 := entry.inv2 wid cur hw
                  rw [hw₀] at h3
                  exact hww (Option.some_inj.mp h3).symm
            · intro p w hp
              rw [hpaw] at hp
              by_cases hpp : pid = p
              · subst hpp
                rw [if_pos rfl] at hp
                obtain rfl := Option.some_inj.mp hp
                exact Or.inr ⟨rfl, List.mem_cons_self _ _⟩
              · rw [if_neg hpp] at hp
                rcases T2.resp p w hp with h2 | ⟨rfl, h3⟩
                · exact Or.inl h2
                · exact Or.inl h3
            · intro p w hp
              rw [hpaw]
              by_cases hpp : pid = p
              · exact ⟨wid, by rw [if_pos hpp]⟩
              · obtain ⟨w', hw'⟩ := T2.keys_mono p w hp
                exact ⟨w', by rw [if_neg hpp]; exact hw'⟩
            · intro hnd
              exact nodupKeys_aset _ _ (T2.nodup hnd)
          · rename_i seen2 st2 hr
            obtain ⟨hst2, hsub2⟩ := hrec_false cur (wid :: seen) st seen2 st2 hr
            rw [hst2] at h
            have entry3 : EntryInv cand pid seen2 st :=
              { inv1 := entry.inv1, inv2 := entry.inv2, resp := entry.resp
                empty_free := entry.empty_free
                pending := fun w₀ hp =>
                  hsub2 (List.mem_cons_of_mem _ (entry.pending w₀ hp)) }
            have T3 := ih pid seen2 st seen' st' entry3 h
            have hseen : seen ⊆ seen2 :=
              fun x hx => hsub2 (List.mem_cons_of_mem _ hx)
            refine ⟨?_, ?_, ?_, ?_, T3.inv1, T3.inv2, ?_, T3.keys_mono,
              T3.nodup⟩
            · exact fun x hx => T3.seen_mono (hseen hx)
            · obtain ⟨w, h1, h2, h3⟩ := T3.self_assigned
              exact ⟨w, h1, List.mem_cons_of_mem _ h2, fun hx => h3 (hseen hx)⟩
            · intro p hp hchanged
              obtain ⟨⟨w₀, hw₀, hw₀s⟩, ⟨w', hw', hw'c, hw's⟩⟩ :=
                T3.paw_frame p hp hchanged
              exact ⟨⟨w₀, hw₀, fun hx => hw₀s (hseen hx)⟩,
                ⟨w', hw', hw'c, fun hx => hw's (hseen hx)⟩⟩
            · intro w hchanged
              exact fun hx => T3.wat_frame w hchanged (hseen hx)
            · intro p w hp
              rcases T3.resp p w hp with h1 | ⟨h1, h2⟩
              · exact Or.inl h1
              · exact Or.inr ⟨h1, List.mem_cons_of_mem _ h2⟩

theorem tryMatch_true (cand : String → List String) :
    ∀ (fuel : Nat) (pid : String) (seen : List String) (st : MatchState)
      (seen' : List String) (st' : MatchState),
      EntryInv cand pid seen st →
      tryMatch cand fuel pid seen st = (true, seen', st') →
      TrueOut cand pid (cand pid) seen seen' st st' := by
  intro fuel
  induction fuel with
  | zero =>
    intro pid seen st seen' st' _ h
    simp [tryMatch] at h
  | succ fuel ih =>
    intro pid seen st seen' st' entry h
    exact tryMatchGo_true cand (tryMatch cand fuel)
      (fun c s m s2 m2 hr => tryMatch_false_frame cand fuel c s m s2 m2 hr)
      (fun c s m s2 m2 he hr => ih c s m s2 m2 he hr)
      (cand pid) pid seen st seen' st' entry h

/-! ### Quiescent invariants threaded through the player-order loop -/

/-- The invariant holding between top-level `tryMatch` calls: the two maps
are mutually inverse bijections respecting the candidate lists, and the
picker map has no duplicate keys. -/
structure QInv (cand : String → List String) (st : MatchState) : Prop where
  inv1 : ∀ p w, aget st.pickerAssignedWish p = some w →
    aget st.wishAssignedTo w = some p
  inv2 : ∀ w p, aget st.wishAssignedTo w = some p →
    aget st.pickerAssignedWish p = some w
  resp : ∀ p w, aget st.pickerAssignedWish p = some w → w ∈ cand p
  nodup : (st.pickerAssignedWish.map Prod.fst).Nodup
  empty_free : aget st.pickerAssignedWish "" = none

theorem step_inv (cand : String → List String) (fuel : Nat) {pid : String}
    {st st' : MatchState} {seen' : List String} {processed : List String}
    (hq : QInv cand st)
    (hkeys : ∀ p, (∃ w, aget st.pickerAssignedWish p = some w) ↔
      p ∈ processed)
    (hpid : pid ∉ processed) (hpidne : pid ≠ "")
    (h : tryMatch cand fuel pid [] st = (true, seen', st')) :
    QInv cand st' ∧
      ∀ p, (∃ w, aget st'.pickerAssignedWish p = some w) ↔
        p ∈ processed ++ [pid] := by
  have entry : EntryInv cand pid [] st :=
    { inv1 := hq.inv1, inv2 := hq.inv2, resp := hq.resp
      empty_free := hq.empty_free
      pending := fun w₀ hp => absurd ((hkeys pid).mp ⟨w₀, hp⟩) hpid }
  have T := tryMatch_true cand fuel pid [] st seen' st' entry h
  constructor
  · refine ⟨T.inv1, ?_, ?_, T.nodup hq.nodup, ?_⟩
    · intro w p hp
      rcases T.inv2 w p hp with h1 | ⟨w₀, hw₀, rfl⟩
      · exact h1
      · exact absurd ((hkeys pid).mp ⟨_, hw₀⟩) hpid
    · intro p w hp
      rcases T.resp p w hp with h1 | ⟨rfl, h2⟩
      · exact h1
      · exact h2
    · by_cases hch : aget st'.pickerAssignedWish "" =
          aget st.pickerAssignedWish ""
      · rw [hch]
        exact hq.empty_free
      · obtain ⟨⟨w₀, hw₀, -⟩, -⟩ := T.paw_frame ""
          (fun hh => hpidne hh.symm) hch
        rw [hq.empty_free] at hw₀
        exact Option.noConfusion hw₀
  · intro p
    constructor
    · rintro ⟨w, hp⟩
      by_cases hpp : p = pid
      · subst hpp
        simp
      · by_cases hch : aget st'.pickerAssignedWish p =
            aget st.pickerAssignedWish p
        · rw [hch] at hp
          exact List.mem_append_left _ ((hkeys p).mp ⟨w, hp⟩)
        · obtain ⟨⟨w₀, hw₀, -⟩, -⟩ := T.paw_frame p hpp hch
          exact List.mem_append_left _ ((hkeys p).mp ⟨w₀, hw₀⟩)
    · intro hp
      rcases List.mem_append.mp hp with hp1 | hp1
      · obtain ⟨w, hw⟩ := (hkeys p).mpr hp1
        exact T.keys_mono p w hw
      · rw [List.mem_singleton] at hp1
        subst hp1
        obtain ⟨w, hw, -, -⟩ := T.self_assigned
        exact ⟨w, hw⟩

theorem runOrder_inv (cand : String → List String) (fuel : Nat) :
    ∀ (order : List String) (st st'' : MatchState) (processed : List String),
      QInv cand st →
      (∀ p, (∃ w, aget st.pickerAssignedWish p = some w) ↔ p ∈ processed) →
      (∀ p ∈ order, p ∉ processed) →
      order.Nodup →
      (∀ p ∈ order, p ≠ "") →
      runOrder cand fuel order st = some st'' →
      QInv cand st'' ∧
        ∀ p, (∃ w, aget st''.pickerAssignedWish p = some w) ↔
          p ∈ processed ++ order := by
  intro order
  induction order with
  | nil =>
    intro st st'' processed hq hkeys _ _ _ h
    simp only [runOrder, Option.some.injEq] at h
    subst h
    simpa using ⟨hq, hkeys⟩
  | cons pid rest ih =>
    intro st st'' processed hq hkeys hdisj hnd hne h
    simp only [runOrder] at h
    split at h
    · rename_i seen1 st1 hr
      obtain ⟨hq1, hkeys1⟩ := step_inv cand fuel hq hkeys
        (hdisj pid (List.mem_cons_self _ _))
        (hne pid (List.mem_cons_self _ _)) hr
      have hdisj1 : ∀ p ∈ rest, p ∉ processed ++ [pid] := by
        intro p hp hmem
        rcases List.mem_append.mp hmem with h1 | h1
        · exact hdisj p (List.mem_cons_of_mem _ hp) h1
        · rw [List.mem_singleton] at h1
          subst h1
          exact (List.nodup_cons.mp hnd).1 hp
      obtain ⟨hq2, hkeys2⟩ := ih st1 st'' (processed ++ [pid]) hq1 hkeys1
        hdisj1 (List.nodup_cons.mp hnd).2
        (fun p hp => hne p (List.mem_cons_of_mem _ hp)) h
      refine ⟨hq2, fun p => (hkeys2 p).trans ?_⟩
      simp
    · simp at h

/-! ### Characterizing the candidate map of one attempt -/

theorem buildCandGo_ok_aget (players : List Player) (wishes : List Wish)
    (s : String) :
    ∀ (rest : List Player) (acc m : List (String × List String)),
      buildCandGo players wishes s rest acc = .ok m →
      ∀ pid v, aget m pid = some v →
        aget acc pid = some v ∨
          ∃ p ∈ rest, p.id = pid ∧
            v = srShuffle (s ++ "#cand#" ++ pid)
              (eligibleList players wishes p) := by
  intro rest
  induction rest with
  | nil =>
    intro acc m h pid v hv
    simp only [buildCandGo, Except.ok.injEq] at h
    subst h
    exact Or.inl hv
  | cons p t ih =>
    intro acc m h pid v hv
    simp only [buildCandGo] at h
    split at h
    · exact absurd h (by simp)
    · rcases ih _ m h pid v hv with h1 | ⟨q, hq, hqid, hqv⟩
      · rw [aget_aset] at h1
        by_cases hpp : p.id = pid
        · rw [if_pos hpp] at h1
          refine Or.inr ⟨p, List.mem_cons_self _ _, hpp, ?_⟩
          rw [← hpp]
          exact (Option.some_inj.mp h1).symm
        · rw [if_neg hpp] at h1
          exact Or.inl h1
      · exact Or.inr ⟨q, List.mem_cons_of_mem _ hq, hqid, hqv⟩

theorem buildCandGo_keys_mono (players : List Player) (wishes : List Wish)
    (s : String) :
    ∀ (rest : List Player) (acc m : List (String × List String)),
      buildCandGo players wishes s rest acc = .ok m →
      ∀ k v, aget acc k = some v → ∃ v', aget m k = some v' := by
  intro rest
  induction rest with
  | nil =>
    intro acc m h k v hv
    simp only [buildCandGo, Except.ok.injEq] at h
    subst h
    exact ⟨v, hv⟩
  | cons p t ih =>
    intro acc m h k v hv
    simp only [buildCandGo] at h
    split at h
    · exact absurd h (by simp)
    · by_cases hpp : p.id = k
      · refine ih _ m h k (srShuffle (s ++ "#cand#" ++ p.id)
          (eligibleList players wishes p)) ?_
        rw [aget_aset, if_pos hpp]
      · refine ih _ m h k v ?_
        rw [aget_aset, if_neg hpp]
        exact hv

theorem buildCandGo_mem_key (players : List Player) (wishes : List Wish)
    (s : String) :
    ∀ (rest : List Player) (acc m : List (String × List String)),
      buildCandGo players wishes s rest acc = .ok m →
      ∀ p ∈ rest, ∃ v, aget m p.id = some v := by
  intro rest
  induction rest with
  | nil =>
    intro acc m _ p hp
    simp at hp
  | cons q t ih =>
    intro acc m h p hp
    simp only [buildCandGo] at h
    split at h
    · exact absurd h (by simp)
    · rcases List.mem_cons.mp hp with rfl | hp1
      · refine buildCandGo_keys_mono players wishes s t _ m h p.id
          (srShuffle (s ++ "#cand#" ++ p.id)
            (eligibleList players wishes p)) ?_
        rw [aget_aset, if_pos rfl]
      · exact ih _ m h p hp1

theorem nodup_ids_eq {players : List Player}
    (hnd : (players.map Player.id).Nodup) :
    ∀ p ∈ players, ∀ q ∈ players, p.id = q.id → p = q := by
  induction players with
  | nil => simp
  | cons a t ih =>
    simp only [List.map_cons, List.nodup_cons] at hnd
    intro p hp q hq heq
    rcases List.mem_cons.mp hp with rfl | hp1
    · rcases List.mem_cons.mp hq with rfl | hq1
      · rfl
      · exact absurd (heq ▸ List.mem_map.mpr ⟨q, hq1, rfl⟩) hnd.1
    · rcases List.mem_cons.mp hq with rfl | hq1
      · exact absurd (heq ▸ List.mem_map.mpr ⟨p, hp1, rfl⟩) hnd.1
      · exact ih hnd.2 p hp1 q hq1 heq

theorem cand_value {players : List Player} {wishes : List Wish} {s : String}
    {m : List (String × List String)} {p : Player}
    (hnd : (players.map Player.id).Nodup) (hp : p ∈ players)
    (hok : buildCandidates players wishes s = .ok m) :
    ∃ v, aget m p.id = some v ∧ v.Perm (eligibleList players wishes p) := by
  obtain ⟨v, hv⟩ := buildCandGo_mem_key players wishes s players [] m hok p hp
  rcases buildCandGo_ok_aget players wishes s players [] m hok p.id v hv with
    h1 | ⟨q, hq, hqid, hqv⟩
  · simp [aget] at h1
  · obtain rfl := nodup_ids_eq hnd q hq p hp hqid
    subst hqv
    exact ⟨_, hv, srShuffle_perm_general _ _⟩

theorem mem_eligibleList {players : List Player} {wishes : List Wish}
    {p : Player} {w : String} :
    w ∈ eligibleList players wishes p ↔
      w ∈ wishes.map Wish.id ∧
        ∃ wsh, aget (wishById wishes) w = some wsh ∧ wsh.ownerId ≠ p.id ∧
          groupLabel players wsh.ownerId ≠ groupLabel players p.id := by
  unfold eligibleList
  rw [List.mem_filter]
  constructor
  · rintro ⟨h1, h2⟩
    rcases ha : aget (wishById wishes) w with _ | wsh
    · rw [ha] at h2
      simp at h2
    · rw [ha] at h2
      simp only [Bool.and_eq_true, bne_iff_ne] at h2
      exact ⟨h1, wsh, rfl, h2.1, h2.2⟩
  · rintro ⟨h1, wsh, ha, h3, h4⟩
    refine ⟨h1, ?_⟩
    rw [ha]
    simp only [Bool.and_eq_true, bne_iff_ne]
    exact ⟨h3, h4⟩

/-! ### Picking apart a successful run of `matchWishes` -/

theorem matchLoop_ok_elim (players : List Player) (wishes : List Wish)
    (seed : String) (fuel : Nat) :
    ∀ (r a : Nat) (pairs : List MatchPair),
      matchLoop players wishes seed fuel r a = .ok pairs →
      ∃ attempt : Nat, runAttempt players wishes
        (seed ++ "|" ++ toString attempt) fuel = .ok (some pairs) := by
  intro r
  induction r with
  | zero =>
    intro a pairs h
    exact absurd h (by simp [matchLoop])
  | succ r ih =>
    intro a pairs h
    simp only [matchLoop] at h
    split at h
    · exact absurd h (by simp)
    · rename_i ps hra
      rw [Except.ok.injEq] at h
      subst h
      exact ⟨a, hra⟩
    · exact ih (a + 1) pairs h

theorem runAttempt_ok_elim {players : List Player} {wishes : List Wish}
    {s : String} {fuel : Nat} {pairs : List MatchPair}
    (h : runAttempt players wishes s fuel = .ok (some pairs)) :
    ∃ candMap st'',
      buildCandidates players wishes s = .ok candMap ∧
        runOrder (fun pid => (aget candMap pid).getD []) fuel
          (srShuffle (s ++ "#order") (players.map (·.id))) ⟨[], []⟩ =
            some st'' ∧
        pairs = st''.pickerAssignedWish.map (fun e => ⟨e.1, e.2⟩) := by
  simp only [runAttempt] at h
  split at h
  · exact absurd h (by simp)
  · rename_i candMap hbc
    split at h
    · rename_i st'' hro
      simp only [Except.ok.injEq, Option.some.injEq] at h
      exact ⟨candMap, st'', hbc, hro, h.symm⟩
    · simp at h

/-! ### Values of the picker map are distinct wishes -/

theorem values_nodup :
    ∀ (m wat : List (String × String)),
      (m.map Prod.fst).Nodup →
      (∀ p w, aget m p = some w → aget wat w = some p) →
      (m.map Prod.snd).Nodup := by
  intro m
  induction m with
  | nil =>
    intro wat _ _
    simp
  | cons e t ih =>
    obtain ⟨p, w⟩ := e
    intro wat hnd hinv
    simp only [List.map_cons, List.nodup_cons] at hnd ⊢
    have hkey : p ∉ t.map Prod.fst := hnd.1
    have hinvt : ∀ p' w', aget t p' = some w' → aget wat w' = some p' := by
      intro p' w' hp'
      have hne : p ≠ p' := fun hh => hkey (hh ▸ mem_keys_of_aget hp')
      refine hinv p' w' ?_
      simp only [aget, if_neg hne]
      exact hp'
    refine ⟨?_, ih wat hnd.2 hinvt⟩
    intro hmem
    obtain ⟨⟨p'', w''⟩, hmem2, heq⟩ := List.mem_map.mp hmem
    dsimp only at heq
    rw [heq] at hmem2
    have hp'' : aget t p'' = some w := aget_eq_some_of_mem hmem2 hnd.2
    have hne : p ≠ p'' := fun hh => hkey (hh ▸ mem_keys_of_aget hp'')
    have h1 := hinvt p'' w hp''
    have h3 : aget wat w = some p := by
      refine hinv p w ?_
      simp [aget]
    rw [h1] at h3
    exact hne (Option.some_inj.mp h3).symm

/-- C1 (amended): whenever `matchWishes` succeeds on a participant list with
unique ids *none of which is the empty string*, the returned pairs are a
complete valid assignment: every participant is picker in exactly one pair,
every wish id is matched at most once, and every pair's wish is neither
self-owned nor owned inside the picker's group (group labels defaulting to
`"A"`); in particular no partial assignment is ever returned.  The
non-empty-id proviso is forced: the JS truthiness test `!cur` treats a wish
held by the participant with id `""` as free, and the counterexample below
shows a unique-id input on which the program matches one wish twice. -/
theorem matchWishes_ok_valid
    (players : List Player) (wishes : List Wish) (seed : String)
    (pairs : List MatchPair)
    (hids : (players.map Player.id).Nodup)
    (hno : ∀ p ∈ players, p.id ≠ "")
    (hok : matchWishes players wishes seed = .ok pairs) :
    (∀ p ∈ players, (pairs.map MatchPair.pickerId).count p.id = 1) ∧
      (∀ wid : String, (pairs.map MatchPair.wishId).count wid ≤ 1) ∧
      ∀ pr ∈ pairs, ∃ wsh, aget (wishById wishes) pr.wishId = some wsh ∧
        wsh.ownerId ≠ pr.pickerId ∧
        groupLabel players wsh.ownerId ≠ groupLabel players pr.pickerId := by
  rw [matchWishes, matchWishesF] at hok
  obtain ⟨attempt, hatt⟩ :=
    matchLoop_ok_elim players wishes seed (wishes.length + 1) 7 0 pairs hok
  obtain ⟨candMap, st'', hbc, hro, hpairs⟩ := runAttempt_ok_elim hatt
  have hperm : (srShuffle ((seed ++ "|" ++ toString attempt) ++ "#order")
      (players.map (·.id))).Perm (players.map (·.id)) :=
    srShuffle_perm_general _ _
  have hordnd : (srShuffle ((seed ++ "|" ++ toString attempt) ++ "#order")
      (players.map (·.id))).Nodup := hperm.nodup_iff.mpr hids
  have hq0 : QInv (fun pid => (aget candMap pid).getD [])
      (⟨[], []⟩ : MatchState) := by
    refine ⟨?_, ?_, ?_, ?_, ?_⟩ <;> first
      | (intro p w hp; simp [aget] at hp)
      | simp [aget]
  have hkeys0 : ∀ p,
      (∃ w, aget (⟨[], []⟩ : MatchState).pickerAssignedWish p = some w) ↔
        p ∈ ([] : List String) := by
    intro p
    simp [aget]
  obtain ⟨hq, hkeys⟩ := runOrder_inv _ (wishes.length + 1) _ _ st'' [] hq0
    hkeys0 (by simp) hordnd
    (by
      intro a ha
      obtain ⟨p, hp, rfl⟩ := List.mem_map.mp (hperm.mem_iff.mp ha)
      exact hno p hp) hro
  have hkeys' : ∀ p, (∃ w, aget st''.pickerAssignedWish p = some w) ↔
      p ∈ srShuffle ((seed ++ "|" ++ toString attempt) ++ "#order")
        (players.map (·.id)) := by
    intro p
    rw [hkeys p]
    simp
  have hmapfst : pairs.map MatchPair.pickerId =
      st''.pickerAssignedWish.map Prod.fst := by
    rw [hpairs, List.map_map]
    rfl
  have hmapsnd : pairs.map MatchPair.wishId =
      st''.pickerAssignedWish.map Prod.snd := by
    rw [hpairs, List.map_map]
    rfl
  refine ⟨?_, ?_, ?_⟩
  · intro p hp
    have hmem : p.id ∈ srShuffle ((seed ++ "|" ++ toString attempt) ++
        "#order") (players.map (·.id)) :=
      hperm.mem_iff.mpr (List.mem_map.mpr ⟨p, hp, rfl⟩)
    obtain ⟨w, hw⟩ := (hkeys' p.id).mpr hmem
    rw [hmapfst]
    exact List.count_eq_one_of_mem hq.nodup (mem_keys_of_aget hw)
  · intro wid
    rw [hmapsnd]
    exact List.nodup_iff_count_le_one.mp
      (values_nodup _ _ hq.nodup hq.inv1) wid
  · intro pr hpr
    rw [hpairs] at hpr
    obtain ⟨e, he, heq⟩ := List.mem_map.mp hpr
    subst heq
    have hae : aget st''.pickerAssignedWish e.1 = some e.2 :=
      aget_eq_some_of_mem (by exact he) hq.nodup
    have hcand := hq.resp e.1 e.2 hae
    rcases hv : aget candMap e.1 with _ | v
    · rw [hv] at hcand
      simp at hcand
    · rw [hv] at hcand
      simp only [Option.getD_some] at hcand
      rcases buildCandGo_ok_aget players wishes _ players [] candMap hbc
          e.1 v hv with h1 | ⟨q, hq2, hqid, hqv⟩
      · simp [aget] at h1
      · subst hqv
        have helig : e.2 ∈ eligibleList players wishes q :=
          (srShuffle_perm_general _ _).mem_iff.mp hcand
        obtain ⟨-, wsh, ha, hown, hgrp⟩ := mem_eligibleList.mp helig
        show ∃ wsh, aget (wishById wishes) e.2 = some wsh ∧
          wsh.ownerId ≠ e.1 ∧
          groupLabel players wsh.ownerId ≠ groupLabel players e.1
        rw [← hqid]
        exact ⟨wsh, ha, hown, hgrp⟩

/-! ### Concrete test scenario (the source's own self-test data) -/

instance exceptDecidableEq {e a : Type} [DecidableEq e] [DecidableEq a] :
    DecidableEq (Except e a)
  | .error x, .error y =>
    if h : x = y then .isTrue (congrArg Except.error h)
    else .isFalse (fun hh => h (Except.error.inj hh))
  | .error _, .ok _ => .isFalse (fun hh => Except.noConfusion hh)
  | .ok _, .error _ => .isFalse (fun hh => Except.noConfusion hh)
  | .ok x, .ok y =>
    if h : x = y then .isTrue (congrArg Except.ok h)
    else .isFalse (fun hh => h (Except.ok.inj hh))

/-- Scenario A of the source self-test: two players in different groups. -/
def scenarioPlayers : List Player :=
  [⟨"A", "Alice", ["A1", "A2"], none, none, some "A"⟩,
    ⟨"B", "Bob", ["B1", "B2"], none, none, some "B"⟩]

/-- Scenario A wishes: two wishes per player. -/
def scenarioWishes : List Wish :=
  [⟨"wA1", "A", "A1"⟩, ⟨"wA2", "A", "A2"⟩, ⟨"wB1", "B", "B1"⟩,
    ⟨"wB2", "B", "B2"⟩]

/-- The pairs `matchWishes` returns on scenario A with seed `"seed-1"`. -/
def scenarioPairs : List MatchPair := [⟨"A", "wB1"⟩, ⟨"B", "wA1"⟩]

set_option maxRecDepth 400000 in
/-- Witness for C1 at the two-player scenario of the source self-test. -/
theorem matchWishes_ok_valid_witness :
    (scenarioPlayers.map Player.id).Nodup ∧
      (∀ p ∈ scenarioPlayers, p.id ≠ "") ∧
      matchWishes scenarioPlayers scenarioWishes "seed-1" =
        .ok scenarioPairs ∧
      ((∀ p ∈ scenarioPlayers,
          (scenarioPairs.map MatchPair.pickerId).count p.id = 1) ∧
        (∀ wid : String, (scenarioPairs.map MatchPair.wishId).count wid ≤ 1) ∧
        ∀ pr ∈ scenarioPairs, ∃ wsh,
          aget (wishById scenarioWishes) pr.wishId = some wsh ∧
            wsh.ownerId ≠ pr.pickerId ∧
            groupLabel scenarioPlayers wsh.ownerId ≠
              groupLabel scenarioPlayers pr.pickerId) :=
  ⟨by decide, by decide, by decide,
    matchWishes_ok_valid scenarioPlayers scenarioWishes "seed-1"
      scenarioPairs (by decide) (by decide) (by decide)⟩

/-- Players of the C1 counterexample: unique ids, one of them the empty
string (two in group `"A"`, one in group `"B"`). -/
def cePlayers : List Player :=
  [⟨"", "empty", [], none, none, some "A"⟩,
    ⟨"x", "xx", [], none, none, some "A"⟩,
    ⟨"y", "yy", [], none, none, some "B"⟩]

/-- Wishes of the C1 counterexample: two wishes owned by `"y"`, one by
`"x"`. -/
def ceWishes : List Wish :=
  [⟨"w1", "y", "t1"⟩, ⟨"w2", "y", "t2"⟩, ⟨"v", "x", "t3"⟩]

set_option maxRecDepth 600000 in
/-- Counterexample to C1 as originally stated: on a participant list with
unique ids (`""`, `"x"`, `"y"`) and seed `"s2"`, `matchWishes` succeeds but
matches the wish id `"w1"` twice — the search treats `"w1"`, already held by
the empty-string participant, as free (`!cur` is true for the empty string)
and hands it to `"x"` as well. -/
theorem matchWishes_ok_valid_counterexample :
    (cePlayers.map Player.id).Nodup ∧
      matchWishes cePlayers ceWishes "s2" =
        .ok [⟨"y", "v"⟩, ⟨"", "w1"⟩, ⟨"x", "w1"⟩] ∧
      ¬ (([(⟨"y", "v"⟩ : MatchPair), ⟨"", "w1"⟩, ⟨"x", "w1"⟩].map
          MatchPair.wishId).count "w1" ≤ 1) := by
  refine ⟨by decide, by decide, by decide⟩

/-! ### Structural infeasibility and the attempt loop -/

theorem buildCandGo_error_of_empty (players : List Player)
    (wishes : List Wish) (s : String) :
    ∀ (rest : List Player) (acc : List (String × List String)),
      (∃ p ∈ rest, eligibleList players wishes p = []) →
      ∃ q ∈ rest, eligibleList players wishes q = [] ∧
        buildCandGo players wishes s rest acc = .error q := by
  intro rest
  induction rest with
  | nil =>
    rintro acc ⟨p, hp, -⟩
    simp at hp
  | cons p t ih =>
    rintro acc ⟨p', hp', hpe'⟩
    by_cases hpe : eligibleList players wishes p = []
    · refine ⟨p, List.mem_cons_self _ _, hpe, ?_⟩
      simp [buildCandGo, hpe]
    · have hp't : p' ∈ t := by
        rcases List.mem_cons.mp hp' with rfl | h1
        · exact absurd hpe' hpe
        · exact h1
      obtain ⟨q, hq, hqe, herr⟩ := ih
        (aset acc p.id (srShuffle (s ++ "#cand#" ++ p.id)
          (eligibleList players wishes p))) ⟨p', hp't, hpe'⟩
      refine ⟨q, List.mem_cons_of_mem _ hq, hqe, ?_⟩
      simp only [buildCandGo]
      rw [if_neg (fun hh => hpe (List.isEmpty_iff.mp hh))]
      exact herr

theorem matchLoop_structural (players : List Player) (wishes : List Wish)
    (seed : String) (fuel : Nat) (q : Player) :
    ∀ (r a : Nat), 0 < r →
      runAttempt players wishes (seed ++ "|" ++ toString a) fuel = .error q →
      matchLoop players wishes seed fuel r a = .error (.structural q) := by
  intro r
  cases r with
  | zero =>
    intro a h
    exact absurd h (by omega)
  | succ r =>
    intro a _ hra
    simp only [matchLoop, hra]

/-- C3: if some participant's eligibility candidate list is empty,
`matchWishes` fails with the structural error naming a participant whose
candidate list is empty (never the exhaustion error), and it does so already
on the first attempt. -/
theorem matchWishes_structural (players : List Player) (wishes : List Wish)
    (seed : String)
    (hne : ∃ p ∈ players, eligibleList players wishes p = []) :
    ∃ q ∈ players, eligibleList players wishes q = [] ∧
      matchWishes players wishes seed = .error (.structural q) ∧
      runAttempt players wishes (seed ++ "|" ++ toString 0)
        (wishes.length + 1) = .error q := by
  obtain ⟨q, hq, hqe, herr⟩ := buildCandGo_error_of_empty players wishes
    (seed ++ "|" ++ toString 0) players [] hne
  have hra : runAttempt players wishes (seed ++ "|" ++ toString 0)
      (wishes.length + 1) = .error q := by
    simp only [runAttempt, buildCandidates, herr]
  refine ⟨q, hq, hqe, ?_, hra⟩
  show matchLoop players wishes seed (wishes.length + 1) 7 0 =
    .error (.structural q)
  exact matchLoop_structural players wishes seed _ q 7 0 (by omega) hra

/-- Scenario B players: two participants, both in group `"A"`. -/
def structuralPlayers : List Player :=
  [⟨"A", "Alice", [], none, none, some "A"⟩,
    ⟨"B", "Bob", [], none, none, some "A"⟩]

set_option maxRecDepth 400000 in
/-- Witness for C3: with both players in the same group every candidate list
is empty, and the run fails structurally on attempt 0. -/
theorem matchWishes_structural_witness :
    (∃ p ∈ structuralPlayers,
      eligibleList structuralPlayers scenarioWishes p = []) ∧
      ∃ q ∈ structuralPlayers,
        eligibleList structuralPlayers scenarioWishes q = [] ∧
          matchWishes structuralPlayers scenarioWishes "seed-1" =
            .error (.structural q) ∧
          runAttempt structuralPlayers scenarioWishes
            ("seed-1" ++ "|" ++ toString 0) (scenarioWishes.length + 1) =
              .error q :=
  ⟨by decide,
    matchWishes_structural structuralPlayers scenarioWishes "seed-1"
      (by decide)⟩

theorem matchLoop_all_none (players : List Player) (wishes : List Wish)
    (seed : String) (fuel : Nat) :
    ∀ (r a : Nat),
      (∀ i, i < r → runAttempt players wishes
        (seed ++ "|" ++ toString (a + i)) fuel = .ok none) →
      matchLoop players wishes seed fuel r a = .error .exhausted := by
  intro r
  induction r with
  | zero =>
    intro a _
    rfl
  | succ r ih =>
    intro a h
    have h0 := h 0 (Nat.succ_pos r)
    rw [Nat.add_zero] at h0
    simp only [matchLoop, h0]
    refine ih (a + 1) (fun i hi => ?_)
    have h2 := h (i + 1) (by omega)
    rw [show a + (i + 1) = a + 1 + i from by omega] at h2
    exact h2

theorem matchLoop_success_at (players : List Player) (wishes : List Wish)
    (seed : String) (fuel : Nat) :
    ∀ (r k a : Nat) (pairs : List MatchPair), k < r →
      (∀ i, i < k → runAttempt players wishes
        (seed ++ "|" ++ toString (a + i)) fuel = .ok none) →
      runAttempt players wishes (seed ++ "|" ++ toString (a + k)) fuel =
        .ok (some pairs) →
      matchLoop players wishes seed fuel r a = .ok pairs := by
  intro r
  induction r with
  | zero =>
    intro k a pairs hk
    exact absurd hk (by omega)
  | succ r ih =>
    intro k a pairs hk hnone hsucc
    cases k with
    | zero =>
      rw [Nat.add_zero] at hsucc
      simp only [matchLoop, hsucc]
    | succ k =>
      have h0 := hnone 0 (Nat.succ_pos k)
      rw [Nat.add_zero] at h0
      simp only [matchLoop, h0]
      refine ih k (a + 1) pairs (by omega) (fun i hi => ?_) ?_
      · have h2 := hnone (i + 1) (by omega)
        rw [show a + (i + 1) = a + 1 + i from by omega] at h2
        exact h2
      · rw [show a + 1 + k = a + (k + 1) from by omega]
        exact hsucc

/-- C4: `matchWishes` makes at most 7 attempts, indexed 0..6, each with the
attempt-scoped seed `seed + '|' + attempt`; the first successful attempt's
pairs are returned immediately and later attempts are not run; only if all 7
attempts fail (and none fails structurally) is the exhaustion error
returned. -/
theorem matchWishes_attempt_structure (players : List Player)
    (wishes : List Wish) (seed : String) :
    ((∀ i, i < 7 → runAttempt players wishes (seed ++ "|" ++ toString i)
        (wishes.length + 1) = .ok none) →
      matchWishes players wishes seed = .error .exhausted) ∧
      ∀ k, k < 7 → ∀ pairs : List MatchPair,
        (∀ i, i < k → runAttempt players wishes (seed ++ "|" ++ toString i)
          (wishes.length + 1) = .ok none) →
        runAttempt players wishes (seed ++ "|" ++ toString k)
          (wishes.length + 1) = .ok (some pairs) →
        matchWishes players wishes seed = .ok pairs := by
  constructor
  · intro h
    show matchLoop players wishes seed (wishes.length + 1) 7 0 =
      .error .exhausted
    refine matchLoop_all_none players wishes seed _ 7 0 (fun i hi => ?_)
    rw [Nat.zero_add]
    exact h i hi
  · intro k hk pairs hnone hsucc
    show matchLoop players wishes seed (wishes.length + 1) 7 0 = .ok pairs
    refine matchLoop_success_at players wishes seed _ 7 k 0 pairs hk
      (fun i hi => ?_) ?_
    · rw [Nat.zero_add]
      exact hnone i hi
    · rw [Nat.zero_add]
      exact hsucc

/-- Players of the exhaustion scenario: two group-`"A"` players who can only
receive the single group-`"B"` wish. -/
def exhPlayers : List Player :=
  [⟨"A1", "a1", [], none, none, some "A"⟩,
    ⟨"A2", "a2", [], none, none, some "A"⟩,
    ⟨"B", "b", [], none, none, some "B"⟩]

/-- Wishes of the exhaustion scenario. -/
def exhWishes : List Wish := [⟨"wA", "A1", "x"⟩, ⟨"wB", "B", "y"⟩]

set_option maxRecDepth 1000000 in
/-- Witness for C4: an instance where all 7 attempts fail yields the
exhaustion error, and an instance succeeding at attempt 0 returns its pairs
immediately. -/
theorem matchWishes_attempt_structure_witness :
    matchWishes exhPlayers exhWishes "s" = .error .exhausted ∧
      matchWishes ([] : List Player) exhWishes "s" = .ok [] :=
  ⟨(matchWishes_attempt_structure exhPlayers exhWishes "s").1 (by decide),
    (matchWishes_attempt_structure [] exhWishes "s").2 0 (by decide) []
      (by decide) (by decide)⟩

/-! ### The fuel of the search is irrelevant beyond the number of wish ids -/

theorem tryMatch_fuel_eq (U : List String) (cand : String → List String)
    (hU : ∀ q, ∀ w ∈ cand q, w ∈ U) :
    ∀ (n : Nat) (f1 f2 : Nat) (pid : String) (seen : List String)
      (st : MatchState),
      unseenCount U seen = n → n < f1 → n < f2 →
      tryMatch cand f1 pid seen st = tryMatch cand f2 pid seen st := by
  intro n
  induction n using Nat.strong_induction_on with
  | _ n IH =>
    intro f1 f2 pid seen st hn h1 h2
    obtain ⟨g1, rfl⟩ : ∃ g, f1 = g + 1 := ⟨f1 - 1, by omega⟩
    obtain ⟨g2, rfl⟩ : ∃ g, f2 = g + 1 := ⟨f2 - 1, by omega⟩
    show tryMatchGo (tryMatch cand g1) pid (cand pid) seen st =
      tryMatchGo (tryMatch cand g2) pid (cand pid) seen st
    have inner : ∀ (opts : List String) (seen' : List String)
        (st' : MatchState),
        (∀ w ∈ opts, w ∈ U) → unseenCount U seen' ≤ n →
        tryMatchGo (tryMatch cand g1) pid opts seen' st' =
          tryMatchGo (tryMatch cand g2) pid opts seen' st' := by
      intro opts
      induction opts with
      | nil =>
        intro seen' st' _ _
        rfl
      | cons wid rest ihop =>
        intro seen' st' hopts hle
        simp only [tryMatchGo]
        by_cases hmem : wid ∈ seen'
        · rw [if_pos hmem, if_pos hmem]
          exact ihop seen' st'
            (fun w hw => hopts w (List.mem_cons_of_mem _ hw)) hle
        · rw [if_neg hmem, if_neg hmem]
          rcases hw : aget st'.wishAssignedTo wid with _ | cur
          · simp only [hw]
          · simp only [hw]
            by_cases hcur : cur = ""
            · rw [if_pos hcur, if_pos hcur]
            · rw [if_neg hcur, if_neg hcur]
              have hwid : wid ∈ U := hopts wid (List.mem_cons_self _ _)
              have hm : unseenCount U (wid :: seen') < n :=
                Nat.lt_of_lt_of_le (unseenCount_cons_lt hwid hmem) hle
              have hrec := IH (unseenCount U (wid :: seen')) hm g1 g2 cur
                (wid :: seen') st' rfl (by omega) (by omega)
              rw [hrec]
              rcases hres : tryMatch cand g2 cur (wid :: seen') st' with
                ⟨b, seen2, st2⟩
              cases b
              · obtain ⟨hst2, hsub2⟩ :=
                  tryMatch_false_frame cand g2 cur (wid :: seen') st' seen2
                    st2 hres
              -- continuation at the grown seen set
                exact ihop seen2 st2
                  (fun w hwr => hopts w (List.mem_cons_of_mem _ hwr))
                  (le_trans (unseenCount_mono
                    (fun x hx => hsub2 (List.mem_cons_of_mem _ hx))) hle)
              · rfl
    exact inner (cand pid) seen st (hU pid) (by omega)

theorem runOrder_fuel_eq (U : List String) (cand : String → List String)
    (hU : ∀ q, ∀ w ∈ cand q, w ∈ U) (f1 f2 : Nat)
    (h1 : unseenCount U [] < f1) (h2 : unseenCount U [] < f2) :
    ∀ (order : List String) (st : MatchState),
      runOrder cand f1 order st = runOrder cand f2 order st := by
  intro order
  induction order with
  | nil =>
    intro st
    rfl
  | cons pid rest ih =>
    intro st
    simp only [runOrder]
    rw [tryMatch_fuel_eq U cand hU (unseenCount U []) f1 f2 pid [] st rfl
      h1 h2]
    rcases hres : tryMatch cand f2 pid [] st with ⟨b, seen1, st1⟩
    cases b
    · rfl
    · exact ih st1

theorem cand_sub_wishIds {players : List Player} {wishes : List Wish}
    {s : String} {candMap : List (String × List String)}
    (hok : buildCandidates players wishes s = .ok candMap) :
    ∀ pid, ∀ w ∈ (aget candMap pid).getD [], w ∈ wishes.map Wish.id := by
  intro pid w hw
  rcases hv : aget candMap pid with _ | v
  · rw [hv] at hw
    simp at hw
  · rw [hv] at hw
    simp only [Option.getD_some] at hw
    rcases buildCandGo_ok_aget players wishes s players [] candMap hok
        pid v hv with h1 | ⟨q, -, -, hqv⟩
    · simp [aget] at h1
    · subst hqv
      have hmem := (srShuffle_perm_general _ _).mem_iff.mp hw
      unfold eligibleList at hmem
      exact List.mem_of_mem_filter hmem

theorem runAttempt_fuel_eq (players : List Player) (wishes : List Wish)
    (s : String) (f1 f2 : Nat)
    (h1 : wishes.length < f1) (h2 : wishes.length < f2) :
    runAttempt players wishes s f1 = runAttempt players wishes s f2 := by
  simp only [runAttempt]
  rcases hbc : buildCandidates players wishes s with p | candMap
  · rfl
  · have hU := cand_sub_wishIds hbc
    have hlen : unseenCount (wishes.map Wish.id) [] ≤ wishes.length := by
      have := unseenCount_nil_le_length (wishes.map Wish.id)
      simpa using this
    dsimp only
    rw [runOrder_fuel_eq (wishes.map Wish.id) _ hU f1 f2 (by omega)
      (by omega)]

theorem matchLoop_fuel_eq (players : List Player) (wishes : List Wish)
    (seed : String) (f1 f2 : Nat)
    (h1 : wishes.length < f1) (h2 : wishes.length < f2) :
    ∀ (r a : Nat),
      matchLoop players wishes seed f1 r a =
        matchLoop players wishes seed f2 r a := by
  intro r
  induction r with
  | zero =>
    intro a
    rfl
  | succ r ih =>
    intro a
    simp only [matchLoop]
    rw [runAttempt_fuel_eq players wishes _ f1 f2 h1 h2]
    rcases hra : runAttempt players wishes (seed ++ "|" ++ toString a) f2 with
      p | op
    · rfl
    · rcases op with _ | pairs
      · exact ih (a + 1)
      · rfl

/-- C9: the recursive augmenting-path search terminates on every input —
each recursive call first adds a fresh wish id to the per-top-level `seen`
set, so the recursion depth is bounded by the number of wish ids.  In the
embedding: any fuel exceeding the number of wishes gives the same result, so
`matchWishes` (which uses fuel `wishes.length + 1`) is a total function
whose value is fuel-independent. -/
theorem matchWishes_fuel_irrelevant (players : List Player)
    (wishes : List Wish) (seed : String) (f1 f2 : Nat)
    (h1 : wishes.length < f1) (h2 : wishes.length < f2) :
    matchWishesF players wishes seed f1 = matchWishesF players wishes seed f2 ∧
      matchWishes players wishes seed = matchWishesF players wishes seed f1 := by
  constructor
  · exact matchLoop_fuel_eq players wishes seed f1 f2 h1 h2 7 0
  · exact matchLoop_fuel_eq players wishes seed (wishes.length + 1) f1
      (by omega) h1 7 0

/-- Witness for C9 at the exhaustion scenario with fuels 3 and 50. -/
theorem matchWishes_fuel_irrelevant_witness :
    matchWishesF exhPlayers exhWishes "s" 3 =
        matchWishesF exhPlayers exhWishes "s" 50 ∧
      matchWishes exhPlayers exhWishes "s" =
        matchWishesF exhPlayers exhWishes "s" 3 :=
  matchWishes_fuel_irrelevant exhPlayers exhWishes "s" 3 50 (by decide)
    (by decide)

/-! ### Completeness: if a perfect matching exists, every search succeeds

If a top-level `tryMatch` fails, the failed exploration yields a Hall
violator: the explored wish set `S` is entirely matched, the picker together
with the holders of `S` form `|S| + 1` distinct players, and all their
candidates lie inside `S` — so no assignment can give them distinct wishes,
contradicting the existence of a perfect matching. -/

/-- Weakened entry invariant for the completeness track: only the
wish-to-picker direction is assumed, so the argument also covers runs where
the truthiness branch has stolen a wish from the empty-string participant
(which breaks the picker-to-wish direction but never the converse). -/
structure Entry2 (pid : String) (seen : List String) (st : MatchState) :
    Prop where
  inv2 : ∀ w p, aget st.wishAssignedTo w = some p →
    aget st.pickerAssignedWish p = some w
  pending : ∀ w₀, aget st.pickerAssignedWish pid = some w₀ → w₀ ∈ seen

/-- What the completeness track needs from a successful call. -/
structure True2 (pid : String) (seen seen' : List String)
    (st st' : MatchState) : Prop where
  seen_mono : seen ⊆ seen'
  self_assigned : ∃ w, aget st'.pickerAssignedWish pid = some w ∧ w ∉ seen
  paw_frame : ∀ p, p ≠ pid →
    aget st'.pickerAssignedWish p ≠ aget st.pickerAssignedWish p →
    (∃ w₀, aget st.pickerAssignedWish p = some w₀ ∧ w₀ ∉ seen) ∧
      ∃ w', aget st'.pickerAssignedWish p = some w' ∧ w' ∉ seen
  inv2 : ∀ w p, aget st'.wishAssignedTo w = some p →
    aget st'.pickerAssignedWish p = some w ∨
      ∃ w₀, aget st.pickerAssignedWish pid = some w₀ ∧ w = w₀
  keys_mono : ∀ p w, aget st.pickerAssignedWish p = some w →
    ∃ w', aget st'.pickerAssignedWish p = some w'

theorem true2_take (pid wid : String) (seen : List String) (st : MatchState)
    (hmem : wid ∉ seen) (entry : Entry2 pid seen st) :
    True2 pid seen (wid :: seen) st (assign st pid wid) := by
  have hpaw : ∀ p, aget (assign st pid wid).pickerAssignedWish p =
      if pid = p then some wid else aget st.pickerAssignedWish p :=
    fun p => aget_aset _ _ _ _
  have hwat : ∀ w, aget (assign st pid wid).wishAssignedTo w =
      if wid = w then some pid else aget st.wishAssignedTo w :=
    fun w => aget_aset _ _ _ _
  refine ⟨?_, ?_, ?_, ?_, ?_⟩
  · exact fun x hx => List.mem_cons_of_mem _ hx
  · exact ⟨wid, by rw [hpaw]; simp, hmem⟩
  · intro p hp hchanged
    rw [hpaw, if_neg (fun hh => hp hh.symm)] at hchanged
    exact absurd rfl hchanged
  · intro w p hp
    rw [hwat] at hp
    by_cases hww : wid = w
    · subst hww
      rw [if_pos rfl] at hp
      obtain rfl := Option.some_inj.mp hp
      rw [hpaw, if_pos rfl]
      exact Or.inl rfl
    · rw [if_neg hww] at hp
      have h2 := entry.inv2 w p hp
      by_cases hpp : pid = p
      · subst hpp
        exact Or.inr ⟨w, h2, rfl⟩
      · rw [hpaw, if_neg hpp]
        exact Or.inl h2
  · intro p w hp
    rw [hpaw]
    by_cases hpp : pid = p
    · exact ⟨wid, by rw [if_pos hpp]⟩
    · exact ⟨w, by rw [if_neg hpp]; exact hp⟩

theorem tryMatchGo_true2
    (recurse : String → List String → MatchState →
      Bool × List String × MatchState)
    (hrec_false : ∀ cur seen st seen2 st2,
      recurse cur seen st = (false, seen2, st2) → st2 = st ∧ seen ⊆ seen2)
    (hrec_true : ∀ cur seen st seen2 st2, Entry2 cur seen st →
      recurse cur seen st = (true, seen2, st2) →
      True2 cur seen seen2 st st2) :
    ∀ (opts : List String) (pid : String) (seen : List String)
      (st : MatchState) (seen' : List String) (st' : MatchState),
      Entry2 pid seen st →
      tryMatchGo recurse pid opts seen st = (true, seen', st') →
      True2 pid seen seen' st st' := by
  intro opts
  induction opts with
  | nil =>
    intro pid seen st seen' st' _ h
    simp [tryMatchGo] at h
  | cons wid rest ih =>
    intro pid seen st seen' st' entry h
    simp only [tryMatchGo] at h
    split at h
    · exact ih pid seen st seen' st' entry h
    · rename_i hmem
      split at h
      · rename_i hw
        simp only [Prod.mk.injEq] at h
        obtain ⟨-, h1, h2⟩ := h
        subst h1
        subst h2
        exact true2_take pid wid seen st hmem entry
      · rename_i cur hw
        split at h
        · rename_i hcur
          simp only [Prod.mk.injEq] at h
          obtain ⟨-, h1, h2⟩ := h
          subst h1
          subst h2
          exact true2_take pid wid seen st hmem entry
        · rename_i hcur
          have hcurpid : cur ≠ pid := by
            rintro rfl
            exact hmem (entry.pending wid (entry.inv2 wid cur hw))
          split at h
          · rename_i seen2 st2 hr
            simp only [Prod.mk.injEq] at h
            obtain ⟨-, h1, h2⟩ := h
            subst h1
            subst h2
            have entry2 : Entry2 cur (wid :: seen) st :=
              { inv2 := entry.inv2
                pending := by
                  intro w₀ hp
                  have h2 := entry.inv2 wid cur hw
                  rw [hp] at h2
                  obtain rfl := Option.some_inj.mp h2
                  exact List.mem_cons_self _ _ }
            have T2 := hrec_true cur (wid :: seen) st seen2 st2 entry2 hr
            have hpaw : ∀ p,
                aget (assign st2 pid wid).pickerAssignedWish p =
                  if pid = p then some wid
                  else aget st2.pickerAssignedWish p :=
              fun p => aget_aset _ _ _ _
            have hwat : ∀ w, aget (assign st2 pid wid).wishAssignedTo w =
                if wid = w then some pid else aget st2.wishAssignedTo w :=
              fun w => aget_aset _ _ _ _
            have hpid_unchanged : aget st2.pickerAssignedWish pid =
                aget st.pickerAssignedWish pid := by
              by_contra hch
              obtain ⟨⟨w₀, hw₀, hw₀s⟩, -⟩ :=
                T2.paw_frame pid (fun hh => hcurpid hh.symm) hch
              exact hw₀s (List.mem_cons_of_mem _ (entry.pending w₀ hw₀))
            refine ⟨?_, ?_, ?_, ?_, ?_⟩
            · exact fun x hx => T2.seen_mono (List.mem_cons_of_mem _ hx)
            · exact ⟨wid, by rw [hpaw]; simp, hmem⟩
            · intro p hp hchanged
              rw [hpaw, if_neg (fun hh => hp hh.symm)] at hchanged
              rw [hpaw, if_neg (fun hh => hp hh.symm)]
              by_cases hpc : p = cur
              · subst hpc
                have hold : aget st.pickerAssignedWish p = some wid :=
                  entry.inv2 wid p hw
                obtain ⟨w', hw', hw's⟩ := T2.self_assigned
                exact ⟨⟨wid, hold, hmem⟩,
                  ⟨w', hw', fun hx => hw's (List.mem_cons_of_mem _ hx)⟩⟩
              · obtain ⟨⟨w₀, hw₀, hw₀s⟩, ⟨w', hw', hw's⟩⟩ :=
                  T2.paw_frame p hpc hchanged
                exact ⟨⟨w₀, hw₀, fun hx => hw₀s (List.mem_cons_of_mem _ hx)⟩,
                  ⟨w', hw', fun hx => hw's (List.mem_cons_of_mem _ hx)⟩⟩
            · intro w p hp
              rw [hwat] at hp
              by_cases hww : wid = w
              · subst hww
                rw [if_pos rfl] at hp
                obtain rfl := Option.some_inj.mp hp
                rw [hpaw, if_pos rfl]
                exact Or.inl rfl
              · rw [if_neg hww] at hp
                rcases T2.inv2 w p hp with h2 | ⟨w₀, hw₀, rfl⟩
                · by_cases hpp : pid = p
                  · subst hpp
                    rw [hpid_unchanged] at h2
                    exact Or.inr ⟨w, h2, rfl⟩
                  · rw [hpaw, if_neg hpp]
                    exact Or.inl h2
                · exfalso
                  have h3 := entry.inv2 wid cur hw
                  rw [hw₀] at h3
                  exact hww (Option.some_inj.mp h3).symm
            · intro p w hp
              rw [hpaw]
              by_cases hpp : pid = p
              · exact ⟨wid, by rw [if_pos hpp]⟩
              · obtain ⟨w', hw'⟩ := T2.keys_mono p w hp
                exact ⟨w', by rw [if_neg hpp]; exact hw'⟩
          · rename_i seen2 st2 hr
            obtain ⟨hst2, hsub2⟩ := hrec_false cur (wid :: seen) st seen2 st2
              hr
            rw [hst2] at h
            have entry3 : Entry2 pid seen2 st :=
              { inv2 := entry.inv2
                pending := fun w₀ hp =>
                  hsub2 (List.mem_cons_of_mem _ (entry.pending w₀ hp)) }
            have T3 := ih pid seen2 st seen' st' entry3 h
            have hseen : seen ⊆ seen2 :=
              fun x hx => hsub2 (List.mem_cons_of_mem _ hx)
            refine ⟨?_, ?_, ?_, T3.inv2, T3.keys_mono⟩
            · exact fun x hx => T3.seen_mono (hseen hx)
            · obtain ⟨w, h1, h3⟩ := T3.self_assigned
              exact ⟨w, h1, fun hx => h3 (hseen hx)⟩
            · intro p hp hchanged
              obtain ⟨⟨w₀, hw₀, hw₀s⟩, ⟨w', hw', hw's⟩⟩ :=
                T3.paw_frame p hp hchanged
              exact ⟨⟨w₀, hw₀, fun hx => hw₀s (hseen hx)⟩,
                ⟨w', hw', fun hx => hw's (hseen hx)⟩⟩

theorem tryMatch_true2 (cand : String → List String) :
    ∀ (fuel : Nat) (pid : String) (seen : List String) (st : MatchState)
      (seen' : List String) (st' : MatchState),
      Entry2 pid seen st →
      tryMatch cand fuel pid seen st = (true, seen', st') →
      True2 pid seen seen' st st' := by
  intro fuel
  induction fuel with
  | zero =>
    intro pid seen st seen' st' _ h
    simp [tryMatch] at h
  | succ fuel ih =>
    intro pid seen st seen' st' entry h
    exact tryMatchGo_true2 (tryMatch cand fuel)
      (fun c s m s2 m2 hr => tryMatch_false_frame cand fuel c s m s2 m2 hr)
      (fun c s m s2 m2 he hr => ih c s m s2 m2 he hr)
      (cand pid) pid seen st seen' st' entry h

theorem step_inv2 (cand : String → List String) (fuel : Nat) {pid : String}
    {st st' : MatchState} {seen' : List String} {processed : List String}
    (hinv2 : ∀ w p, aget st.wishAssignedTo w = some p →
      aget st.pickerAssignedWish p = some w)
    (hkeys : ∀ p, (∃ w, aget st.pickerAssignedWish p = some w) ↔
      p ∈ processed)
    (hpid : pid ∉ processed)
    (h : tryMatch cand fuel pid [] st = (true, seen', st')) :
    (∀ w p, aget st'.wishAssignedTo w = some p →
      aget st'.pickerAssignedWish p = some w) ∧
      ∀ p, (∃ w, aget st'.pickerAssignedWish p = some w) ↔
        p ∈ processed ++ [pid] := by
  have entry : Entry2 pid [] st :=
    { inv2 := hinv2
      pending := fun w₀ hp => absurd ((hkeys pid).mp ⟨w₀, hp⟩) hpid }
  have T := tryMatch_true2 cand fuel pid [] st seen' st' entry h
  constructor
  · intro w p hp
    rcases T.inv2 w p hp with h1 | ⟨w₀, hw₀, rfl⟩
    · exact h1
    · exact absurd ((hkeys pid).mp ⟨_, hw₀⟩) hpid
  · intro p
    constructor
    · rintro ⟨w, hp⟩
      by_cases hpp : p = pid
      · subst hpp
        simp
      · by_cases hch : aget st'.pickerAssignedWish p =
            aget st.pickerAssignedWish p
        · rw [hch] at hp
          exact List.mem_append_left _ ((hkeys p).mp ⟨w, hp⟩)
        · obtain ⟨⟨w₀, hw₀, -⟩, -⟩ := T.paw_frame p hpp hch
          exact List.mem_append_left _ ((hkeys p).mp ⟨w₀, hw₀⟩)
    · intro hp
      rcases List.mem_append.mp hp with hp1 | hp1
      · obtain ⟨w, hw⟩ := (hkeys p).mpr hp1
        exact T.keys_mono p w hw
      · rw [List.mem_singleton] at hp1
        subst hp1
        obtain ⟨w, hw, -⟩ := T.self_assigned
        exact ⟨w, hw⟩

theorem tryMatch_success_of_pm
    (U : List String) (cand : String → List String)
    (hU : ∀ q, ∀ w ∈ cand q, w ∈ U)
    (ids : List String) (f : String → String)
    (hf : ∀ a ∈ ids, f a ∈ cand a)
    (hinj : ∀ a ∈ ids, ∀ b ∈ ids, f a = f b → a = b)
    (fuel : Nat) (st : MatchState) (pid : String)
    (hfuel : unseenCount U [] < fuel)
    (hinv2 : ∀ w p, aget st.wishAssignedTo w = some p →
      aget st.pickerAssignedWish p = some w)
    (hmat : ∀ p w, aget st.pickerAssignedWish p = some w → p ∈ ids)
    (hpid : pid ∈ ids)
    (hunm : aget st.pickerAssignedWish pid = none) :
    (tryMatch cand fuel pid [] st).1 = true := by
  rcases hres : tryMatch cand fuel pid [] st with ⟨b, seen', st'⟩
  cases b
  · exfalso
    obtain ⟨hcand_sub, hclosure⟩ := tryMatch_false_explore U cand
      (fun q w hw => hU q w hw) fuel pid [] st seen' st' hfuel hres
    have hmatched : ∀ w ∈ seen', ∃ h, aget st.wishAssignedTo w = some h ∧
        cand h ⊆ seen' := by
      intro w hw
      rcases hclosure w hw with h1 | h2
      · simp at h1
      · exact h2
    classical
    set S : Finset String := seen'.toFinset with hS
    set hol : String → String :=
      fun w => (aget st.wishAssignedTo w).getD "" with hhol
    have hol_spec : ∀ w ∈ S, aget st.wishAssignedTo w = some (hol w) := by
      intro w hw
      obtain ⟨h, hh, -⟩ := hmatched w (List.mem_toFinset.mp hw)
      rw [hhol]
      simp only [hh, Option.getD_some]
    have hol_inj : Set.InjOn hol ↑S := by
      intro w1 hw1 w2 hw2 heq
      have h1 := hinv2 w1 (hol w1) (hol_spec w1 hw1)
      have h2 := hinv2 w2 (hol w2) (hol_spec w2 hw2)
      rw [heq] at h1
      rw [h1] at h2
      exact Option.some_inj.mp h2
    have hpid_not : pid ∉ S.image hol := by
      intro hmem
      obtain ⟨w, hwS, hEq⟩ := Finset.mem_image.mp hmem
      have h1 := hol_spec w hwS
      rw [hEq] at h1
      have h2 := hinv2 w pid h1
      rw [hunm] at h2
      exact Option.noConfusion h2
    have hTcard : (insert pid (S.image hol)).card = S.card + 1 := by
      rw [Finset.card_insert_of_not_mem hpid_not,
        Finset.card_image_of_injOn hol_inj]
    have hTids : ∀ t ∈ insert pid (S.image hol), t ∈ ids := by
      intro t ht
      rcases Finset.mem_insert.mp ht with rfl | ht1
      · exact hpid
      · obtain ⟨w, hwS, hEq⟩ := Finset.mem_image.mp ht1
        have h1 := hol_spec w hwS
        rw [hEq] at h1
        exact hmat t w (hinv2 w t h1)
    have hmapsto : ∀ t ∈ insert pid (S.image hol), f t ∈ S := by
      intro t ht
      rcases Finset.mem_insert.mp ht with rfl | ht1
      · exact List.mem_toFinset.mpr (hcand_sub (hf t hpid))
      · obtain ⟨w, hwS, hEq⟩ := Finset.mem_image.mp ht1
        obtain ⟨h, hh, hsub⟩ := hmatched w (List.mem_toFinset.mp hwS)
        have hht : h = t := by
          have := hol_spec w hwS
          rw [hh] at this
          rw [← hEq]
          exact (Option.some_inj.mp this)
        subst hht
        exact List.mem_toFinset.mpr (hsub (hf h (hTids h ht)))
    have hinjT : Set.InjOn f ↑(insert pid (S.image hol)) := by
      intro a ha b hb heq
      exact hinj a (hTids a ha) b (hTids b hb) heq
    have hle := Finset.card_le_card_of_injOn f hmapsto hinjT
    omega
  · rfl

theorem runOrder_total
    (U : List String) (cand : String → List String)
    (hU : ∀ q, ∀ w ∈ cand q, w ∈ U)
    (ids : List String) (f : String → String)
    (hf : ∀ a ∈ ids, f a ∈ cand a)
    (hinj : ∀ a ∈ ids, ∀ b ∈ ids, f a = f b → a = b)
    (fuel : Nat) (hfuel : unseenCount U [] < fuel) :
    ∀ (order : List String) (st : MatchState) (processed : List String),
      (∀ w p, aget st.wishAssignedTo w = some p →
        aget st.pickerAssignedWish p = some w) →
      (∀ p, (∃ w, aget st.pickerAssignedWish p = some w) ↔ p ∈ processed) →
      (∀ p ∈ order, p ∉ processed) →
      order.Nodup →
      (∀ p ∈ order, p ∈ ids) →
      (∀ p ∈ processed, p ∈ ids) →
      ∃ st'', runOrder cand fuel order st = some st'' := by
  intro order
  induction order with
  | nil =>
    intro st processed _ _ _ _ _ _
    exact ⟨st, rfl⟩
  | cons pid rest ih =>
    intro st processed hinv2 hkeys hdisj hnd hordids hprocids
    have hunm : aget st.pickerAssignedWish pid = none := by
      rcases h : aget st.pickerAssignedWish pid with _ | w
      · rfl
      · exact absurd ((hkeys pid).mp ⟨w, h⟩)
          (hdisj pid (List.mem_cons_self _ _))
    have hb := tryMatch_success_of_pm U cand hU ids f hf hinj fuel st pid
      hfuel hinv2 (fun p w hp => hprocids p ((hkeys p).mp ⟨w, hp⟩))
      (hordids pid (List.mem_cons_self _ _)) hunm
    rcases hres : tryMatch cand fuel pid [] st with ⟨b, seen1, st1⟩
    rw [hres] at hb
    dsimp only at hb
    subst hb
    obtain ⟨hinv21, hkeys1⟩ := step_inv2 cand fuel hinv2 hkeys
      (hdisj pid (List.mem_cons_self _ _)) hres
    have hdisj1 : ∀ p ∈ rest, p ∉ processed ++ [pid] := by
      intro p hp hmem
      rcases List.mem_append.mp hmem with h1 | h1
      · exact hdisj p (List.mem_cons_of_mem _ hp) h1
      · rw [List.mem_singleton] at h1
        subst h1
        exact (List.nodup_cons.mp hnd).1 hp
    have hprocids1 : ∀ p ∈ processed ++ [pid], p ∈ ids := by
      intro p hp
      rcases List.mem_append.mp hp with h1 | h1
      · exact hprocids p h1
      · rw [List.mem_singleton] at h1
        subst h1
        exact hordids p (List.mem_cons_self _ _)
    obtain ⟨st'', hst''⟩ := ih st1 (processed ++ [pid]) hinv21 hkeys1 hdisj1
      (List.nodup_cons.mp hnd).2
      (fun p hp => hordids p (List.mem_cons_of_mem _ hp)) hprocids1
    refine ⟨st'', ?_⟩
    simp only [runOrder, hres]
    exact hst''

theorem buildCandGo_ok_of_nonempty (players : List Player)
    (wishes : List Wish) (s : String) :
    ∀ (rest : List Player) (acc : List (String × List String)),
      (∀ p ∈ rest, eligibleList players wishes p ≠ []) →
      ∃ m, buildCandGo players wishes s rest acc = .ok m := by
  intro rest
  induction rest with
  | nil =>
    intro acc _
    exact ⟨acc, rfl⟩
  | cons p t ih =>
    intro acc hne
    obtain ⟨m, hm⟩ := ih (aset acc p.id (srShuffle (s ++ "#cand#" ++ p.id)
      (eligibleList players wishes p)))
      (fun q hq => hne q (List.mem_cons_of_mem _ hq))
    refine ⟨m, ?_⟩
    simp only [buildCandGo]
    rw [if_neg (fun hh => hne p (List.mem_cons_self _ _)
      (List.isEmpty_iff.mp hh))]
    exact hm

/-- C2: on any input (with unique participant ids, the data-model invariant)
where no candidate list is empty, if a perfect matching exists in the fixed
candidate-eligibility graph — an injective choice of an eligible wish id for
every participant — then `matchWishes` succeeds: the augmenting-path search
finds a perfect matching already on the first attempt, so exhaustion can only
be reported when no perfect matching exists. -/
theorem matchWishes_ok_of_perfect_matching
    (players : List Player) (wishes : List Wish) (seed : String)
    (hids : (players.map Player.id).Nodup)
    (hnonempty : ∀ p ∈ players, eligibleList players wishes p ≠ [])
    (f : String → String)
    (hf : ∀ p ∈ players, f p.id ∈ eligibleList players wishes p)
    (hinj : ∀ p ∈ players, ∀ q ∈ players, f p.id = f q.id → p.id = q.id) :
    ∃ pairs, matchWishes players wishes seed = .ok pairs := by
  obtain ⟨candMap, hbc⟩ := buildCandGo_ok_of_nonempty players wishes
    (seed ++ "|" ++ toString 0) players [] hnonempty
  have hbc' : buildCandidates players wishes (seed ++ "|" ++ toString 0) =
      .ok candMap := hbc
  have hU := cand_sub_wishIds hbc'
  have hfc : ∀ a ∈ players.map Player.id,
      f a ∈ (aget candMap a).getD [] := by
    intro a ha
    obtain ⟨p, hp, rfl⟩ := List.mem_map.mp ha
    obtain ⟨v, hv, hperm⟩ := cand_value hids hp hbc'
    rw [hv]
    simp only [Option.getD_some]
    exact hperm.mem_iff.mpr (hf p hp)
  have hinj' : ∀ a ∈ players.map Player.id, ∀ b ∈ players.map Player.id,
      f a = f b → a = b := by
    intro a ha b hb heq
    obtain ⟨p, hp, rfl⟩ := List.mem_map.mp ha
    obtain ⟨q, hq, rfl⟩ := List.mem_map.mp hb
    exact hinj p hp q hq heq
  have hperm : (srShuffle ((seed ++ "|" ++ toString 0) ++ "#order")
      (players.map (·.id))).Perm (players.map (·.id)) :=
    srShuffle_perm_general _ _
  have hinv20 : ∀ w p,
      aget (⟨[], []⟩ : MatchState).wishAssignedTo w = some p →
      aget (⟨[], []⟩ : MatchState).pickerAssignedWish p = some w := by
    intro w p hp
    simp [aget] at hp
  have hkeys0 : ∀ p,
      (∃ w, aget (⟨[], []⟩ : MatchState).pickerAssignedWish p = some w) ↔
        p ∈ ([] : List String) := by
    intro p
    simp [aget]
  have hfuel : unseenCount (wishes.map Wish.id) [] < wishes.length + 1 := by
    have := unseenCount_nil_le_length (wishes.map Wish.id)
    simp only [List.length_map] at this
    omega
  obtain ⟨st'', hro⟩ := runOrder_total (wishes.map Wish.id) _ hU
    (players.map Player.id) f hfc hinj' (wishes.length + 1) hfuel
    (srShuffle ((seed ++ "|" ++ toString 0) ++ "#order")
      (players.map (·.id)))
    ⟨[], []⟩ [] hinv20 hkeys0 (by simp) (hperm.nodup_iff.mpr hids)
    (fun p hp => hperm.mem_iff.mp hp) (by simp)
  have hra : runAttempt players wishes (seed ++ "|" ++ toString 0)
      (wishes.length + 1) =
        .ok (some (st''.pickerAssignedWish.map fun e => ⟨e.1, e.2⟩)) := by
    simp only [runAttempt, hbc']
    rw [hro]
  refine ⟨st''.pickerAssignedWish.map fun e => ⟨e.1, e.2⟩, ?_⟩
  show matchLoop players wishes seed (wishes.length + 1) 7 0 = _
  refine matchLoop_success_at players wishes seed _ 7 0 0 _ (by omega)
    (fun i hi => absurd hi (by omega)) ?_
  rw [Nat.add_zero]
  exact hra

set_option maxRecDepth 400000 in
/-- Witness for C2 at scenario A with an explicit perfect matching. -/
theorem matchWishes_ok_of_perfect_matching_witness :
    (scenarioPlayers.map Player.id).Nodup ∧
      ∃ pairs, matchWishes scenarioPlayers scenarioWishes "seed-1" =
        .ok pairs :=
  ⟨by decide,
    matchWishes_ok_of_perfect_matching scenarioPlayers scenarioWishes
      "seed-1" (by decide) (by decide)
      (fun a => if a = "A" then "wB1" else "wA1") (by decide) (by decide)⟩

end WishDraw
